import Mathlib

/-!
Publication aggregator (`scripts/fetch-publications.mjs`).

A shallow embedding of the fetch / aggregate / filter / sort job and the
properties its specification states about it.

Modelling conventions.

* JavaScript strings are Lean strings (well-formed Unicode text).
* A value read from the response of the service is `undefined` (missing), `null`
  or present (`JsOpt`); the `||` default treats the empty string like a missing
  value, as JavaScript does.  A roster entry without an identifier has `none`.
* A `Map` is an association list in insertion order, a `Set` a list without
  repetition in insertion order.
* A `TypeError` raised by a property access on `undefined` is the error case
  of `Except`.
* The bibliographic service is a function giving the response to the `n`-th
  request of the run (`Responder`); a `Service` is one whose hits carry their
  `metadata` object.  The requests and warnings of a run are recorded as a list
  of events.  Progress lines on standard output and the YAML text of the output
  file are left out; the value handed to the serialiser is the output.
* The collation behind `localeCompare` belongs to the host; it is a parameter of
  `main`, and what is assumed of it is stated where it is used.
* The host time zone is UTC, so local calendar fields are the UTC ones.
-/

namespace FetchPublications

/-! ## Runtime built-ins -/

/-- The built-in `String.prototype.toLowerCase`, on the ASCII letters; other
characters are kept. -/
def toLowerCase (s : String) : String :=
  String.mk (s.data.map Char.toLower)

/-- Search for `kw` at the head of every suffix of the text. -/
def includesAux (kw : List Char) : List Char → Bool
  | [] => kw.isPrefixOf []
  | c :: cs => kw.isPrefixOf (c :: cs) || includesAux kw cs

/-- The built-in `String.prototype.includes`: `kw` occurs in `text` as a contiguous run. -/
def includes (text kw : String) : Bool :=
  includesAux kw.data text.data

/-- Compare two character sequences position by position, by code point. -/
def compareChars : List Char → List Char → Int
  | [], [] => 0
  | [], _ :: _ => -1
  | _ :: _, [] => 1
  | a :: as, b :: bs =>
    if a.toNat < b.toNat then -1
    else if b.toNat < a.toNat then 1
    else compareChars as bs

/-- The comparison of two strings by code point: one collation a host may have. -/
def codePointCompare (a b : String) : Int :=
  compareChars a.data b.data

/-- An optional value of the response: missing (`undefined`), `null`, or present. -/
inductive JsOpt (α : Type) where
  | undefined
  | null
  | val (a : α)
  deriving DecidableEq

/-- Insert `x`, which stood before all of the list, behind the elements that the
comparator puts strictly before it. -/
def sortInsert {α : Type} (cmp : α → α → Int) (x : α) : List α → List α
  | [] => [x]
  | y :: ys => if 0 < cmp x y then y :: sortInsert cmp x ys else x :: y :: ys

/-- The built-in `Array.prototype.sort` with a comparator: a stable sort (elements
that compare equal keep their order), here by insertion from the back. -/
def jsSort {α : Type} (cmp : α → α → Int) : List α → List α
  | [] => []
  | x :: xs => sortInsert cmp x (jsSort cmp xs)

/-- The value of `x || d` for an optional string `x`. -/
def orElse (x : JsOpt String) (d : String) : String :=
  match x with
  | JsOpt.val s => if s = "" then d else s
  | _ => d

/-- The value of `x || null` for an optional string `x`. -/
def orNull (x : JsOpt String) : JsOpt String :=
  match x with
  | JsOpt.val s => if s = "" then JsOpt.null else JsOpt.val s
  | _ => JsOpt.null

/-! ## Keyword filter -/

def KEYWORDS : List String :=
  ["machine learning", "deep learning", "neural network", "artificial intelligence",
   "simulation-based inference", "normalizing flow", "generative model", "diffusion model",
   "transformer", "graph neural", "variational", "bayesian neural", "surrogate model",
   "emulator", "likelihood-free", "foundation model", "reinforcement learning",
   "classification", "regression", "anomaly detection", "generative adversarial",
   "autoencoder", "contrastive learning", "representation learning"]

def matchesKeywords (title abstract : String) : Bool :=
  let text := toLowerCase (title ++ " " ++ abstract)
  KEYWORDS.any (fun kw => includes text kw)

/-! ## Cutoff date -/

def msPerDay : Int := 86400000

/-- Calendar fields of a day: year, month (0 = January), day of the month. -/
structure Civil where
  year : Int
  month : Int
  date : Int
  deriving DecidableEq

/-- The abstract operation `Day(t)`: the number of the day that holds the time value `t`. -/
def dayOf (t : Int) : Int := t / msPerDay

/-- The abstract operation `TimeWithinDay(t)`. -/
def timeWithinDay (t : Int) : Int := t % msPerDay

/-- Number of the first day of the proleptic Gregorian year `y` (1970 is day 0). -/
def dayFromYear (y : Int) : Int :=
  365 * (y - 1970) + (y - 1969) / 4 - (y - 1901) / 100 + (y - 1601) / 400

def inLeapYear (y : Int) : Bool :=
  (y % 4 == 0 && y % 100 != 0) || y % 400 == 0

/-- Days of the year that precede month `m` (0 = January). -/
def daysBeforeMonth (y : Int) (m : Int) : Int :=
  let leap : Int := if inLeapYear y then 1 else 0
  if m = 0 then 0
  else if m = 1 then 31
  else if m = 2 then 59 + leap
  else if m = 3 then 90 + leap
  else if m = 4 then 120 + leap
  else if m = 5 then 151 + leap
  else if m = 6 then 181 + leap
  else if m = 7 then 212 + leap
  else if m = 8 then 243 + leap
  else if m = 9 then 273 + leap
  else if m = 10 then 304 + leap
  else 334 + leap

/-- The abstract operation `MakeDay(year, month, date)`: months outside 0..11
carry into the year, and a day of the month past the end of the month runs on
into the following days. -/
def makeDay (year month date : Int) : Int :=
  let ym := year + month / 12
  let mn := month % 12
  dayFromYear ym + daysBeforeMonth ym mn + date - 1

/-- The fields `YearFromTime`, `MonthFromTime` and `DateFromTime` of a day number. -/
def civilFromDay (day : Int) : Civil :=
  let z := day + 719468
  let era := z / 146097
  let doe := z % 146097
  let yoe := (doe - doe / 1460 + doe / 36524 - doe / 146096) / 365
  let doy := doe - (365 * yoe + yoe / 4 - yoe / 100)
  let mp := (5 * doy + 2) / 153
  let d := doy - (153 * mp + 2) / 5 + 1
  let m := if mp < 10 then mp + 2 else mp - 10
  let y := yoe + era * 400 + (if m ≤ 1 then 1 else 0)
  { year := y, month := m, date := d }

/-- The built-in `Date.prototype.setMonth(month)` on the time value `t`. -/
def setMonth (t : Int) (month : Int) : Int :=
  let c := civilFromDay (dayOf t)
  makeDay c.year month c.date * msPerDay + timeWithinDay t

/-- The built-in `Date.prototype.getMonth()`. -/
def getMonth (t : Int) : Int := (civilFromDay (dayOf t)).month

/-- The decimal digit of `n` at the place `10 ^ k`. -/
def digitAt (n : Int) (k : Nat) : Char :=
  Char.ofNat (48 + (n.natAbs / 10 ^ k) % 10)

/-- The part of `Date.prototype.toISOString()` before the `T`. -/
def isoDate (t : Int) : String :=
  let c := civilFromDay (dayOf t)
  let y := c.year
  let yearPart : List Char :=
    if 0 ≤ y ∧ y ≤ 9999 then [digitAt y 3, digitAt y 2, digitAt y 1, digitAt y 0]
    else [if y < 0 then '-' else '+',
          digitAt y 5, digitAt y 4, digitAt y 3, digitAt y 2, digitAt y 1, digitAt y 0]
  String.mk (yearPart ++ ['-', digitAt (c.month + 1) 1, digitAt (c.month + 1) 0,
                          '-', digitAt c.date 1, digitAt c.date 0])

/-- The function `sixMonthsAgo()`, for the current time value `now` (milliseconds since the epoch).
The date part of the ISO string has at least ten characters, so the slice of the
whole string is the slice of the date part. -/
def sixMonthsAgo (now : Int) : String :=
  let d := setMonth now (getMonth now - 6)
  String.mk ((isoDate d).data.take 10)

/-! ## The bibliographic service -/

structure TitleEntry where
  title : JsOpt String
  deriving DecidableEq

structure AuthorEntry where
  full_name : JsOpt String
  deriving DecidableEq

structure EprintEntry where
  value : JsOpt String
  deriving DecidableEq

structure AbstractEntry where
  value : JsOpt String
  deriving DecidableEq

/-- The `metadata` of a hit; every field the script reads may be missing. -/
structure Metadata where
  titles : JsOpt (List TitleEntry)
  authors : JsOpt (List AuthorEntry)
  arxiv_eprints : JsOpt (List EprintEntry)
  preprint_date : JsOpt String
  abstracts : JsOpt (List AbstractEntry)
  deriving DecidableEq

/-- A hit of the response; its identifier and its `metadata` may be missing. -/
structure Hit where
  id : JsOpt String
  metadata : JsOpt Metadata
  deriving DecidableEq

structure HitList where
  hits : JsOpt (List Hit)
  deriving DecidableEq

/-- The parsed body of a response. -/
structure Data where
  hits : JsOpt HitList
  deriving DecidableEq

structure Response where
  ok : Bool
  status : Nat
  data : Data
  deriving DecidableEq

/-- What a service answers: the response to the `n`-th request of the run
(counted from 0), whose query is `q`.  The rest of the URL is constant and `q` is
recovered from its encoding, so the query stands for the URL. -/
abbrev Responder := Nat → String → Response

/-- A raw record, as `fetchForAuthor` builds it. -/
structure Paper where
  inspire_id : String
  title : String
  authors : List (JsOpt String)
  arxiv : JsOpt String
  date : JsOpt String
  abstract : String
  deriving DecidableEq

inductive Event where
  | request (q : String)
  | warn (msg : String)
  deriving DecidableEq

inductive JsError where
  | typeError
  deriving DecidableEq

/-- The value of `String(hit.id)`. -/
def idString (id : JsOpt String) : String :=
  match id with
  | JsOpt.val s => s
  | JsOpt.null => "null"
  | JsOpt.undefined => "undefined"

/-- The value of `xs?.[0]`. -/
def first? {α : Type} (xs : JsOpt (List α)) : JsOpt α :=
  match xs with
  | JsOpt.val (x :: _) => JsOpt.val x
  | _ => JsOpt.undefined

/-- The value of `x?.f`: the field of a present `x`, otherwise `undefined`. -/
def chain {α β : Type} (x : JsOpt α) (f : α → JsOpt β) : JsOpt β :=
  match x with
  | JsOpt.val a => f a
  | _ => JsOpt.undefined

/-- The value of `xs || []` for an optional array. -/
def orEmpty {α : Type} (xs : JsOpt (List α)) : List α :=
  match xs with
  | JsOpt.val l => l
  | _ => []

/-- The record built from one hit (the body of the `map` callback).  Reading
`m.titles` raises a `TypeError` when `hit.metadata` is `undefined` or `null`. -/
def hitToPaper (hit : Hit) : Except JsError Paper :=
  match hit.metadata with
  | JsOpt.val m =>
    .ok { inspire_id := idString hit.id
          title := orElse (chain (first? m.titles) TitleEntry.title) ""
          authors := (orEmpty m.authors).map AuthorEntry.full_name
          arxiv := orNull (chain (first? m.arxiv_eprints) EprintEntry.value)
          date := orNull m.preprint_date
          abstract := orElse (chain (first? m.abstracts) AbstractEntry.value) "" }
  | _ => .error JsError.typeError

/-- The call `hits.map(hit => ...)`: the records of the hits in order, or the
error of the first hit whose callback raises. -/
def mapHits : List Hit → Except JsError (List Paper)
  | [] => .ok []
  | hit :: rest =>
    match hitToPaper hit with
    | .error e => .error e
    | .ok p =>
      match mapHits rest with
      | .error e => .error e
      | .ok ps => .ok (p :: ps)

/-- The value of `data.hits?.hits || []`. -/
def hitsOf (data : Data) : List Hit :=
  orEmpty (chain data.hits HitList.hits)

/-- The query string of the request for `bai`. -/
def queryFor (bai since : String) : String :=
  "a " ++ bai ++ " and de > " ++ since

/-- The function `fetchForAuthor(bai, since)` as the `n`-th request of the run:
the records returned, or the error raised, and the events of the call. -/
def fetchForAuthor (net : Responder) (n : Nat) (bai since : String) :
    Except JsError (List Paper) × List Event :=
  let q := queryFor bai since
  let res := net n q
  if !res.ok then
    (.ok [], [Event.request q,
              Event.warn ("  WARN: API error for " ++ bai ++ ": " ++ toString res.status)])
  else
    (mapHits (hitsOf res.data), [Event.request q])

/-! ## Aggregation, filter and sort -/

/-- The built-in `Map.prototype.has`. -/
def mapHas {β : Type} (m : List (String × β)) (k : String) : Bool :=
  m.any (fun e => e.1 == k)

/-- The built-in `Map.prototype.get`; `none` is `undefined`. -/
def mapGet {β : Type} (m : List (String × β)) (k : String) : Option β :=
  match m with
  | [] => none
  | e :: rest => if e.1 == k then some e.2 else mapGet rest k

/-- The built-in `Map.prototype.set`: a present key keeps its place, a new key goes last. -/
def mapSet {β : Type} (m : List (String × β)) (k : String) (v : β) : List (String × β) :=
  match m with
  | [] => [(k, v)]
  | e :: rest => if e.1 == k then (k, v) :: rest else e :: mapSet rest k v

/-- The built-in `Set.prototype.add`. -/
def setAdd (s : List String) (x : String) : List String :=
  if x ∈ s then s else s ++ [x]

/-- The two maps of `main`. -/
structure Aggregate where
  allPapers : List (String × Paper)
  paperAuthors : List (String × List String)
  deriving DecidableEq

/-- One pass of the inner loop of `main`, for the record `p` returned for `bai`. -/
def addPaper (bai : String) (st : Aggregate) (p : Paper) : Except JsError Aggregate :=
  let st1 : Aggregate :=
    if !mapHas st.allPapers p.inspire_id then
      { allPapers := mapSet st.allPapers p.inspire_id p
        paperAuthors := mapSet st.paperAuthors p.inspire_id [] }
    else st
  match mapGet st1.paperAuthors p.inspire_id with
  | none => .error JsError.typeError
  | some s => .ok { st1 with paperAuthors := mapSet st1.paperAuthors p.inspire_id (setAdd s bai) }

/-- The inner loop of `main` over the records returned for `bai`. -/
def addPapers (bai : String) (st : Aggregate) : List Paper → Except JsError Aggregate
  | [] => .ok st
  | p :: ps =>
    match addPaper bai st p with
    | .error e => .error e
    | .ok st1 => addPapers bai st1 ps

/-- The outer loop of `main` from the `n`-th request on, over the identifiers
still to query; the events are accumulated in order. -/
def fetchLoop (net : Responder) (since : String) :
    Nat → List String → Aggregate × List Event → Except JsError (Aggregate × List Event)
  | _, [], st => .ok st
  | n, bai :: rest, (agg, evs) =>
    let r := fetchForAuthor net n bai since
    match r.1 with
    | .error e => .error e
    | .ok papers =>
      match addPapers bai agg papers with
      | .error e => .error e
      | .ok agg1 => fetchLoop net since (n + 1) rest (agg1, evs ++ r.2)

/-- A roster entry; only `inspire` is read. -/
structure Member where
  inspire : Option String
  deriving DecidableEq

/-- Truthiness of an optional string. -/
def truthy (x : Option String) : Bool :=
  match x with
  | some s => s != ""
  | none => false

/-- The value of `members.filter(m => m.inspire).map(m => m.inspire)`, the filter
and the map in one pass. -/
def baisOf (members : List Member) : List String :=
  members.filterMap (fun m => if truthy m.inspire then m.inspire else none)

structure OutputRecord where
  title : String
  authors : List (JsOpt String)
  eucaif_authors : List String
  arxiv : JsOpt String
  date : JsOpt String
  abstract : String
  deriving DecidableEq

/-- The keyword filter loop of `main` over the entries of `allPapers`. -/
def filterLoop (paperAuthors : List (String × List String)) :
    List (String × Paper) → Except JsError (List OutputRecord)
  | [] => .ok []
  | (id, paper) :: rest =>
    if matchesKeywords paper.title paper.abstract then
      match mapGet paperAuthors id with
      | none => .error JsError.typeError
      | some s =>
        match filterLoop paperAuthors rest with
        | .error e => .error e
        | .ok out =>
          .ok ({ title := paper.title, authors := paper.authors, eucaif_authors := s,
                 arxiv := paper.arxiv, date := paper.date, abstract := paper.abstract } :: out)
    else filterLoop paperAuthors rest

/-- The comparator of the sort: `(b.date || '').localeCompare(a.date || '')`. -/
def byDateDesc (localeCompare : String → String → Int) (a b : OutputRecord) : Int :=
  localeCompare (orElse b.date "") (orElse a.date "")

/-- What a run of `main` leaves behind. -/
structure Run where
  aggregate : Aggregate
  output : List OutputRecord
  events : List Event
  deriving DecidableEq

/-- The function `main()`, for the collation of the host, the roster read from
the members file, the answers of the service and the current time. -/
def main (localeCompare : String → String → Int) (members : List Member) (net : Responder)
    (now : Int) : Except JsError Run :=
  let bais := baisOf members
  let since := sixMonthsAgo now
  match fetchLoop net since 0 bais ({ allPapers := [], paperAuthors := [] }, []) with
  | .error e => .error e
  | .ok (agg, evs) =>
    match filterLoop agg.paperAuthors agg.allPapers with
    | .error e => .error e
    | .ok filtered =>
      .ok { aggregate := agg, output := jsSort (byDateDesc localeCompare) filtered,
            events := evs }

/-! ## Specification-level views of a run -/

/-- Every hit of every success response carries a `metadata` object. -/
def WellFormed (respond : Responder) : Prop :=
  ∀ n q, (respond n q).ok = true →
    ∀ hit ∈ hitsOf (respond n q).data, ∃ m, hit.metadata = JsOpt.val m

/-- A service whose hits carry their `metadata`, as the hits of the
bibliographic service do. -/
structure Service where
  respond : Responder
  wellFormed : WellFormed respond

/-- The records of the `n`-th request, none when the call raises. -/
def papersOf (net : Responder) (n : Nat) (bai since : String) : List Paper :=
  match (fetchForAuthor net n bai since).1 with
  | .ok ps => ps
  | .error _ => []

/-- The (identifier, record) pairs of the requests from the `n`-th on, in the
order in which `main` processes them. -/
def pairsFrom (net : Responder) (since : String) : Nat → List String → List (String × Paper)
  | _, [] => []
  | n, bai :: rest =>
    (papersOf net n bai since).map (fun p => (bai, p)) ++ pairsFrom net since (n + 1) rest

/-- The events of the requests from the `n`-th on. -/
def eventsFrom (net : Responder) (since : String) : Nat → List String → List Event
  | _, [] => []
  | n, bai :: rest => (fetchForAuthor net n bai since).2 ++ eventsFrom net since (n + 1) rest

/-- The queries of the requests among the events, in order. -/
def requestsOf : List Event → List String
  | [] => []
  | Event.request q :: rest => q :: requestsOf rest
  | Event.warn _ :: rest => requestsOf rest

/-- An output record is the projection of the aggregated entry `e`, with the
credited identifiers that `paperAuthors` holds for its key. -/
def Projects (paperAuthors : List (String × List String)) (e : String × Paper)
    (r : OutputRecord) : Prop :=
  r.title = e.2.title ∧ r.authors = e.2.authors ∧ r.arxiv = e.2.arxiv ∧ r.date = e.2.date ∧
    r.abstract = e.2.abstract ∧ mapGet paperAuthors e.1 = some r.eucaif_authors

/-- What holds of the two maps once the (identifier, record) pairs `flat` have
been processed, in order. -/
structure Inv (flat : List (String × Paper)) (agg : Aggregate) : Prop where
  keys_eq : agg.paperAuthors.map Prod.fst = agg.allPapers.map Prod.fst
  nodup : (agg.allPapers.map Prod.fst).Nodup
  key_iff : ∀ id, id ∈ agg.allPapers.map Prod.fst ↔ ∃ e ∈ flat, e.2.inspire_id = id
  credit : ∀ id s, mapGet agg.paperAuthors id = some s →
    s.Nodup ∧ ∀ bai, bai ∈ s ↔ ∃ e ∈ flat, e.1 = bai ∧ e.2.inspire_id = id
  paper : ∀ e ∈ agg.allPapers, e.2.inspire_id = e.1 ∧ ∃ f ∈ flat, f.2 = e.2

/-- The query for the roster identifier `bai` (one of the requests made for the
identifiers `bais`, in order) returned a record whose identifier is `id`. -/
def Returned (net : Responder) (since : String) (bais : List String) (bai id : String) : Prop :=
  ∃ n, bais[n]? = some bai ∧
    ∃ ps, (fetchForAuthor net n bai since).1 = .ok ps ∧ ∃ p ∈ ps, p.inspire_id = id

/-- A value of the response is missing: `undefined` or `null`. -/
def Missing {α : Type} (x : JsOpt α) : Prop :=
  x = JsOpt.undefined ∨ x = JsOpt.null

/-- The string has the shape of an ISO date: `YYYY`, `YYYY-MM` or `YYYY-MM-DD`. -/
def isIsoDate (s : String) : Bool :=
  match s.data with
  | [y1, y2, y3, y4] => y1.isDigit && y2.isDigit && y3.isDigit && y4.isDigit
  | [y1, y2, y3, y4, h1, m1, m2] =>
    y1.isDigit && y2.isDigit && y3.isDigit && y4.isDigit && h1 == '-' &&
      m1.isDigit && m2.isDigit
  | [y1, y2, y3, y4, h1, m1, m2, h2, d1, d2] =>
    y1.isDigit && y2.isDigit && y3.isDigit && y4.isDigit && h1 == '-' &&
      m1.isDigit && m2.isDigit && h2 == '-' && d1.isDigit && d2.isDigit
  | _ => false

/-- A key of the sort that comes from a date: an ISO date, or the empty string
that stands for a missing date. -/
def DateKey (s : String) : Prop :=
  s = "" ∨ isIsoDate s = true

/-- What is assumed of the `localeCompare` of the host: it is a consistent
comparator, as the language requires of it, and on date keys its sign is that of
the lexical order. -/
structure HostCollation (localeCompare : String → String → Int) : Prop where
  antisymm : ∀ a b, 0 < localeCompare a b → localeCompare b a < 0
  trans : ∀ a b c, localeCompare a b ≤ 0 → localeCompare b c ≤ 0 → localeCompare a c ≤ 0
  dates : ∀ a b, DateKey a → DateKey b → (0 < localeCompare a b ↔ b < a)

/-! ## Scenarios -/

/-- A hit with an identifier, a title and a preprint date, and nothing else. -/
def plainHit (id title : String) (date : JsOpt String) : Hit :=
  { id := JsOpt.val id
    metadata := JsOpt.val
      { titles := JsOpt.val [{ title := JsOpt.val title }], authors := JsOpt.undefined,
        arxiv_eprints := JsOpt.undefined, preprint_date := date,
        abstracts := JsOpt.undefined } }

def hitR1 : Hit := plainHit "R1" "A Neural Network Study" (JsOpt.val "2024-05-01")

def hitR2 : Hit := plainHit "R2" "Unrelated Topic" (JsOpt.val "2024-06-01")

def okResponse (hits : List Hit) : Response :=
  { ok := true, status := 200, data := { hits := JsOpt.val { hits := JsOpt.val hits } } }

def errorResponse (status : Nat) : Response :=
  { ok := false, status := status, data := { hits := JsOpt.undefined } }

/-- The query for `bai` is the one requested. -/
def isQueryOf (bai q : String) : Bool :=
  ("a " ++ bai ++ " and de > ").data.isPrefixOf q.data

def rosterAB : List Member := [{ inspire := some "A" }, { inspire := some "B" }]

/-- The answers of the scenario: `R1` for `A`, `R1` and `R2` for `B`. -/
def respondAB : Responder := fun _ q =>
  if isQueryOf "A" q then okResponse [hitR1]
  else if isQueryOf "B" q then okResponse [hitR1, hitR2]
  else errorResponse 404

/-- The service of the scenario. -/
def serviceAB : Service where
  respond := respondAB
  wellFormed := by
    intro n q _ hit hmem
    unfold respondAB at hmem
    split_ifs at hmem
    · simp only [okResponse, hitsOf, chain, orEmpty, List.mem_singleton] at hmem
      subst hmem
      exact ⟨_, rfl⟩
    · simp only [okResponse, hitsOf, chain, orEmpty, List.mem_cons, List.mem_singleton,
        List.not_mem_nil, or_false] at hmem
      rcases hmem with hmem | hmem
      · subst hmem
        exact ⟨_, rfl⟩
      · subst hmem
        exact ⟨_, rfl⟩
    · simp [errorResponse, hitsOf, chain, orEmpty] at hmem

/-- Noon UTC on 15 June 2024 (2024-06-15T12:00:00Z). -/
def midJune : Int := 1718452800000

/-- Three matching records: one dated May, one without a date, one dated June. -/
def respondDates : Responder := fun _ q =>
  if isQueryOf "A" q then
    okResponse [plainHit "M" "Deep learning in May" (JsOpt.val "2024-05-01"),
                plainHit "N" "Deep learning undated" JsOpt.undefined,
                plainHit "J" "Deep learning in June" (JsOpt.val "2024-06-01")]
  else errorResponse 404

def serviceDates : Service where
  respond := respondDates
  wellFormed := by
    intro n q _ hit hmem
    unfold respondDates at hmem
    split_ifs at hmem
    · simp only [okResponse, hitsOf, chain, orEmpty, List.mem_cons, List.mem_singleton,
        List.not_mem_nil, or_false] at hmem
      rcases hmem with hmem | hmem | hmem
      · subst hmem
        exact ⟨_, rfl⟩
      · subst hmem
        exact ⟨_, rfl⟩
      · subst hmem
        exact ⟨_, rfl⟩
    · simp [errorResponse, hitsOf, chain, orEmpty] at hmem

/-- The output record of a `plainHit` credited to `A` alone. -/
def plainRecord (title : String) (date : JsOpt String) : OutputRecord :=
  { title := title, authors := [], eucaif_authors := ["A"], arxiv := JsOpt.null, date := date,
    abstract := "" }

/-- A hit with an identifier and an empty `metadata`. -/
def bareHit : Hit :=
  { id := JsOpt.val "77"
    metadata := JsOpt.val
      { titles := JsOpt.undefined, authors := JsOpt.undefined,
        arxiv_eprints := JsOpt.undefined, preprint_date := JsOpt.undefined,
        abstracts := JsOpt.undefined } }

/-- A hit with an identifier and no `metadata`. -/
def hitWithoutMetadata : Hit :=
  { id := JsOpt.val "9", metadata := JsOpt.undefined }

def rosterAXB : List Member :=
  [{ inspire := some "A" }, { inspire := some "X" }, { inspire := none }, { inspire := some "B" }]

/-- The answers of the scenario, with a server error for `X`. -/
def respondX : Responder := fun _ q =>
  if isQueryOf "A" q then okResponse [hitR1]
  else if isQueryOf "B" q then okResponse [hitR1, hitR2]
  else errorResponse 500

def serviceX : Service where
  respond := respondX
  wellFormed := by
    intro n q _ hit hmem
    unfold respondX at hmem
    split_ifs at hmem
    · simp only [okResponse, hitsOf, chain, orEmpty, List.mem_singleton] at hmem
      subst hmem
      exact ⟨_, rfl⟩
    · simp only [okResponse, hitsOf, chain, orEmpty, List.mem_cons, List.mem_singleton,
        List.not_mem_nil, or_false] at hmem
      rcases hmem with hmem | hmem
      · subst hmem
        exact ⟨_, rfl⟩
      · subst hmem
        exact ⟨_, rfl⟩
    · simp [errorResponse, hitsOf, chain, orEmpty] at hmem

/-- The service `net`, with every non-success response replaced by a success
without hits. -/
def withoutFailures (net : Service) : Service where
  respond := fun n q => if (net.respond n q).ok then net.respond n q else okResponse []
  wellFormed := by
    intro n q hok hit hmem
    by_cases h : (net.respond n q).ok = true
    · simp only [h, if_true] at hmem hok
      exact net.wellFormed n q h hit hmem
    · simp [h, okResponse, hitsOf, chain, orEmpty] at hmem

/-- The raw record of a `plainHit`. -/
def plainPaper (id title : String) (date : JsOpt String) : Paper :=
  { inspire_id := id, title := title, authors := [], arxiv := JsOpt.null, date := date,
    abstract := "" }

/-- Noon UTC on 31 August 2024 (2024-08-31T12:00:00Z). -/
def endOfAugust : Int := 1725105600000

/-! ## Maps and sets -/

theorem mapHas_iff {β : Type} (m : List (String × β)) (k : String) :
    mapHas m k = true ↔ k ∈ m.map Prod.fst := by
  unfold mapHas
  simp only [List.any_eq_true, beq_iff_eq, List.mem_map]

theorem mapGet_isSome_of_mem {β : Type} (m : List (String × β)) (k : String)
    (h : k ∈ m.map Prod.fst) : ∃ v, mapGet m k = some v := by
  induction m with
  | nil => simp at h
  | cons e rest ih =>
    unfold mapGet
    by_cases hk : e.1 = k
    · exact ⟨e.2, by simp [hk]⟩
    · have : k ∈ rest.map Prod.fst := by
        simp only [List.map_cons, List.mem_cons] at h
        rcases h with h | h
        · exact absurd h.symm hk
        · exact h
      obtain ⟨v, hv⟩ := ih this
      exact ⟨v, by simp [hk, hv]⟩

theorem mapGet_mem {β : Type} (m : List (String × β)) (k : String) (v : β)
    (h : mapGet m k = some v) : (k, v) ∈ m := by
  induction m with
  | nil => simp [mapGet] at h
  | cons e rest ih =>
    unfold mapGet at h
    by_cases hk : e.1 = k
    · simp only [hk, beq_self_eq_true, if_true, Option.some.injEq] at h
      have : e = (k, v) := by
        cases e
        simp_all
      simp [this]
    · have hk2 : (e.1 == k) = false := by simpa using hk
      simp only [hk2] at h
      exact List.mem_cons_of_mem _ (ih h)

theorem mapGet_mem_keys {β : Type} (m : List (String × β)) (k : String) (v : β)
    (h : mapGet m k = some v) : k ∈ m.map Prod.fst :=
  List.mem_map.mpr ⟨(k, v), mapGet_mem m k v h, rfl⟩

theorem mapSet_of_not_mem {β : Type} (m : List (String × β)) (k : String) (v : β)
    (h : k ∉ m.map Prod.fst) : mapSet m k v = m ++ [(k, v)] := by
  induction m with
  | nil => rfl
  | cons e rest ih =>
    simp only [List.map_cons, List.mem_cons, not_or] at h
    have hk : (e.1 == k) = false := by
      simpa using fun hh => h.1 hh.symm
    simp [mapSet, hk, ih h.2]

theorem keys_mapSet_of_mem {β : Type} (m : List (String × β)) (k : String) (v : β)
    (h : k ∈ m.map Prod.fst) : (mapSet m k v).map Prod.fst = m.map Prod.fst := by
  induction m with
  | nil => simp at h
  | cons e rest ih =>
    unfold mapSet
    by_cases hk : e.1 = k
    · simp [hk]
    · have hk2 : (e.1 == k) = false := by simpa using hk
      have : k ∈ rest.map Prod.fst := by
        simp only [List.map_cons, List.mem_cons] at h
        rcases h with h | h
        · exact absurd h.symm hk
        · exact h
      simp [hk2, ih this]

theorem mapGet_mapSet {β : Type} (m : List (String × β)) (k k2 : String) (v : β) :
    mapGet (mapSet m k v) k2 = if k2 = k then some v else mapGet m k2 := by
  induction m with
  | nil =>
    by_cases h : k2 = k
    · simp [mapSet, mapGet, h]
    · have h2 : ¬ k = k2 := fun hh => h hh.symm
      simp [mapSet, mapGet, h, h2]
  | cons e rest ih =>
    by_cases hk : e.1 = k
    · by_cases h : k2 = k
      · simp [mapSet, mapGet, hk, h]
      · have h2 : ¬ k = k2 := fun hh => h hh.symm
        simp [mapSet, mapGet, hk, h, h2]
    · have hk2 : (e.1 == k) = false := by simpa using hk
      by_cases h : k2 = k
      · subst h
        simp [mapSet, mapGet, hk2, hk, ih]
      · simp only [mapSet, hk2, mapGet, ih, h, if_false]

theorem mem_setAdd (s : List String) (x y : String) :
    y ∈ setAdd s x ↔ y ∈ s ∨ y = x := by
  unfold setAdd
  by_cases h : x ∈ s
  · simp only [h, if_true]
    constructor
    · exact Or.inl
    · rintro (h1 | h1)
      · exact h1
      · rw [h1]; exact h
  · simp [h]

theorem nodup_setAdd (s : List String) (x : String) (h : s.Nodup) : (setAdd s x).Nodup := by
  unfold setAdd
  by_cases hx : x ∈ s
  · simpa [hx] using h
  · simp only [hx, if_false]
    rw [List.nodup_append]
    refine ⟨h, List.nodup_singleton x, ?_⟩
    intro a ha hb
    simp only [List.mem_singleton] at hb
    exact hx (hb ▸ ha)

/-! ## The aggregation invariant -/

theorem inv_empty : Inv [] { allPapers := [], paperAuthors := [] } where
  keys_eq := rfl
  nodup := List.nodup_nil
  key_iff := by simp
  credit := by simp [mapGet]
  paper := by simp

/-- The state after the `if` of the inner loop: the record's key is present in
both maps, with the credited set it had, or the empty set when it is new. -/
theorem addPaper_inv (flat : List (String × Paper)) (agg : Aggregate) (bai : String) (p : Paper)
    (h : Inv flat agg) :
    ∃ agg1, addPaper bai agg p = .ok agg1 ∧ Inv (flat ++ [(bai, p)]) agg1 := by
  by_cases hmem : p.inspire_id ∈ agg.allPapers.map Prod.fst
  · -- the key is present
    have hhas : mapHas agg.allPapers p.inspire_id = true := (mapHas_iff _ _).mpr hmem
    have hmem2 : p.inspire_id ∈ agg.paperAuthors.map Prod.fst := by rw [h.keys_eq]; exact hmem
    obtain ⟨s, hs⟩ := mapGet_isSome_of_mem _ _ hmem2
    refine ⟨{ agg with paperAuthors := mapSet agg.paperAuthors p.inspire_id (setAdd s bai) }, ?_, ?_⟩
    · simp [addPaper, hhas, hs]
    · refine ⟨?_, h.nodup, ?_, ?_, ?_⟩
      · show (mapSet agg.paperAuthors p.inspire_id (setAdd s bai)).map Prod.fst = _
        rw [keys_mapSet_of_mem _ _ _ hmem2, h.keys_eq]
      · intro id
        show id ∈ agg.allPapers.map Prod.fst ↔ _
        constructor
        · intro hid
          obtain ⟨e, he, hee⟩ := (h.key_iff id).mp hid
          exact ⟨e, List.mem_append_left _ he, hee⟩
        · rintro ⟨e, he, hee⟩
          rcases List.mem_append.mp he with he | he
          · exact (h.key_iff id).mpr ⟨e, he, hee⟩
          · simp only [List.mem_singleton] at he
            subst he
            rw [← hee]; exact hmem
      · intro id t ht
        have ht2 : mapGet (mapSet agg.paperAuthors p.inspire_id (setAdd s bai)) id = some t := ht
        rw [mapGet_mapSet] at ht2
        by_cases hid : id = p.inspire_id
        · subst hid
          simp only [if_true, Option.some.injEq] at ht2
          subst ht2
          obtain ⟨hnd, hcr⟩ := h.credit _ s hs
          refine ⟨nodup_setAdd _ _ hnd, ?_⟩
          intro b
          rw [mem_setAdd, hcr b]
          constructor
          · rintro (⟨e, he, h1, h2⟩ | hb)
            · exact ⟨e, List.mem_append_left _ he, h1, h2⟩
            · exact ⟨(bai, p), by simp, hb.symm, rfl⟩
          · rintro ⟨e, he, h1, h2⟩
            rcases List.mem_append.mp he with he | he
            · exact Or.inl ⟨e, he, h1, h2⟩
            · simp only [List.mem_singleton] at he
              subst he
              exact Or.inr h1.symm
        · simp only [hid, if_false] at ht2
          obtain ⟨hnd, hcr⟩ := h.credit id t ht2
          refine ⟨hnd, ?_⟩
          intro b
          rw [hcr b]
          constructor
          · rintro ⟨e, he, h1, h2⟩
            exact ⟨e, List.mem_append_left _ he, h1, h2⟩
          · rintro ⟨e, he, h1, h2⟩
            rcases List.mem_append.mp he with he | he
            · exact ⟨e, he, h1, h2⟩
            · simp only [List.mem_singleton] at he
              subst he
              exact absurd h2.symm hid
      · intro e he
        obtain ⟨hid, f, hf, hfe⟩ := h.paper e he
        exact ⟨hid, f, List.mem_append_left _ hf, hfe⟩
  · -- the key is new
    have hhas : mapHas agg.allPapers p.inspire_id = false := by
      cases hb : mapHas agg.allPapers p.inspire_id
      · rfl
      · exact absurd ((mapHas_iff _ _).mp hb) hmem
    have hmem2 : p.inspire_id ∉ agg.paperAuthors.map Prod.fst := by rw [h.keys_eq]; exact hmem
    have hfresh : ∀ e ∈ flat, e.2.inspire_id ≠ p.inspire_id := by
      intro e he hee
      exact hmem ((h.key_iff _).mpr ⟨e, he, hee⟩)
    have hget1 : mapGet (mapSet agg.paperAuthors p.inspire_id []) p.inspire_id = some [] := by
      rw [mapGet_mapSet]; simp
    have hkeys1 : p.inspire_id ∈ (mapSet agg.paperAuthors p.inspire_id ([] : List String)).map Prod.fst :=
      mapGet_mem_keys _ _ _ hget1
    refine ⟨{ allPapers := mapSet agg.allPapers p.inspire_id p
              paperAuthors := mapSet (mapSet agg.paperAuthors p.inspire_id []) p.inspire_id
                (setAdd [] bai) }, ?_, ?_⟩
    · simp [addPaper, hhas, hget1]
    · have hap : mapSet agg.allPapers p.inspire_id p = agg.allPapers ++ [(p.inspire_id, p)] :=
        mapSet_of_not_mem _ _ _ hmem
      refine ⟨?_, ?_, ?_, ?_, ?_⟩
      · show (mapSet (mapSet agg.paperAuthors p.inspire_id []) p.inspire_id (setAdd [] bai)).map
          Prod.fst = (mapSet agg.allPapers p.inspire_id p).map Prod.fst
        rw [keys_mapSet_of_mem _ _ _ hkeys1, mapSet_of_not_mem _ _ _ hmem2, hap]
        simp [h.keys_eq]
      · show ((mapSet agg.allPapers p.inspire_id p).map Prod.fst).Nodup
        rw [hap, List.map_append, List.nodup_append]
        refine ⟨h.nodup, by simp, ?_⟩
        intro a ha hb
        simp only [List.map_cons, List.map_nil, List.mem_singleton] at hb
        exact hmem (hb ▸ ha)
      · intro id
        show id ∈ (mapSet agg.allPapers p.inspire_id p).map Prod.fst ↔ _
        rw [hap]
        simp only [List.map_append, List.map_cons, List.map_nil, List.mem_append,
          List.mem_singleton]
        constructor
        · rintro (hid | hid)
          · obtain ⟨e, he, hee⟩ := (h.key_iff id).mp hid
            exact ⟨e, Or.inl he, hee⟩
          · exact ⟨(bai, p), Or.inr rfl, hid.symm⟩
        · rintro ⟨e, he | he, hee⟩
          · exact Or.inl ((h.key_iff id).mpr ⟨e, he, hee⟩)
          · subst he
            exact Or.inr hee.symm
      · intro id t ht
        have ht2 : mapGet (mapSet (mapSet agg.paperAuthors p.inspire_id []) p.inspire_id
            (setAdd [] bai)) id = some t := ht
        rw [mapGet_mapSet] at ht2
        by_cases hid : id = p.inspire_id
        · subst hid
          simp only [if_true, Option.some.injEq] at ht2
          subst ht2
          refine ⟨nodup_setAdd _ _ List.nodup_nil, ?_⟩
          intro b
          rw [mem_setAdd]
          constructor
          · rintro (hb | hb)
            · simp at hb
            · exact ⟨(bai, p), by simp, hb.symm, rfl⟩
          · rintro ⟨e, he, h1, h2⟩
            rcases List.mem_append.mp he with he | he
            · exact absurd h2 (hfresh e he)
            · simp only [List.mem_singleton] at he
              subst he
              exact Or.inr h1.symm
        · simp only [hid, if_false] at ht2
          rw [mapGet_mapSet] at ht2
          simp only [hid, if_false] at ht2
          obtain ⟨hnd, hcr⟩ := h.credit id t ht2
          refine ⟨hnd, ?_⟩
          intro b
          rw [hcr b]
          constructor
          · rintro ⟨e, he, h1, h2⟩
            exact ⟨e, List.mem_append_left _ he, h1, h2⟩
          · rintro ⟨e, he, h1, h2⟩
            rcases List.mem_append.mp he with he | he
            · exact ⟨e, he, h1, h2⟩
            · simp only [List.mem_singleton] at he
              subst he
              exact absurd h2.symm hid
      · intro e he
        have he2 : e ∈ mapSet agg.allPapers p.inspire_id p := he
        rw [hap] at he2
        rcases List.mem_append.mp he2 with he2 | he2
        · obtain ⟨hid, f, hf, hfe⟩ := h.paper e he2
          exact ⟨hid, f, List.mem_append_left _ hf, hfe⟩
        · simp only [List.mem_singleton] at he2
          subst he2
          exact ⟨rfl, (bai, p), by simp, rfl⟩

theorem addPapers_inv (bai : String) (ps : List Paper) :
    ∀ (flat : List (String × Paper)) (agg : Aggregate), Inv flat agg →
      ∃ agg1, addPapers bai agg ps = .ok agg1 ∧
        Inv (flat ++ ps.map (fun p => (bai, p))) agg1 := by
  induction ps with
  | nil =>
    intro flat agg h
    exact ⟨agg, rfl, by simpa using h⟩
  | cons p ps ih =>
    intro flat agg h
    obtain ⟨agg1, h1, hinv1⟩ := addPaper_inv flat agg bai p h
    obtain ⟨agg2, h2, hinv2⟩ := ih _ agg1 hinv1
    refine ⟨agg2, ?_, ?_⟩
    · simp only [addPapers, h1]
      exact h2
    · simpa [List.append_assoc] using hinv2

/-! ## Calls of `fetchForAuthor` -/

theorem mapHits_ok (hits : List Hit)
    (h : ∀ hit ∈ hits, ∃ m, hit.metadata = JsOpt.val m) :
    ∃ ps, mapHits hits = .ok ps ∧ List.Forall₂ (fun hit p => hitToPaper hit = .ok p) hits ps := by
  induction hits with
  | nil => exact ⟨[], rfl, List.Forall₂.nil⟩
  | cons hit rest ih =>
    obtain ⟨m, hm⟩ := h hit (List.mem_cons_self _ _)
    obtain ⟨ps, hps, hall⟩ := ih (fun x hx => h x (List.mem_cons_of_mem _ hx))
    have hp : ∃ p, hitToPaper hit = .ok p := by
      unfold hitToPaper
      rw [hm]
      exact ⟨_, rfl⟩
    obtain ⟨p, hp⟩ := hp
    refine ⟨p :: ps, ?_, List.Forall₂.cons hp hall⟩
    simp only [mapHits, hp, hps]

theorem hitToPaper_error (hit : Hit) (h : ∀ m, hit.metadata ≠ JsOpt.val m) :
    hitToPaper hit = .error JsError.typeError := by
  unfold hitToPaper
  cases hm : hit.metadata with
  | undefined => rfl
  | null => rfl
  | val m => exact absurd hm (h m)

theorem mapHits_error (hits : List Hit)
    (h : ∃ hit ∈ hits, ∀ m, hit.metadata ≠ JsOpt.val m) :
    mapHits hits = .error JsError.typeError := by
  induction hits with
  | nil =>
    obtain ⟨hit, hmem, _⟩ := h
    simp at hmem
  | cons hit rest ih =>
    unfold mapHits
    cases hp : hitToPaper hit with
    | error e =>
      cases e
      rfl
    | ok p =>
      have hrest : ∃ x ∈ rest, ∀ m, x.metadata ≠ JsOpt.val m := by
        obtain ⟨x, hx, hxm⟩ := h
        rcases List.mem_cons.mp hx with hx | hx
        · subst hx
          rw [hitToPaper_error x hxm] at hp
          cases hp
        · exact ⟨x, hx, hxm⟩
      simp only [ih hrest]

/-- When the hits of the responses carry their `metadata`, no call raises. -/
theorem fetchForAuthor_ok (net : Responder) (hwf : WellFormed net) (n : Nat) (bai since : String) :
    ∃ ps, (fetchForAuthor net n bai since).1 = .ok ps := by
  unfold fetchForAuthor
  by_cases hok : (net n (queryFor bai since)).ok = true
  · obtain ⟨ps, hps, _⟩ := mapHits_ok _ (hwf n (queryFor bai since) hok)
    exact ⟨ps, by simp [hok, hps]⟩
  · exact ⟨[], by simp [hok]⟩

theorem papersOf_of_ok (net : Responder) (n : Nat) (bai since : String) (ps : List Paper)
    (h : (fetchForAuthor net n bai since).1 = .ok ps) : papersOf net n bai since = ps := by
  unfold papersOf
  rw [h]

theorem mem_papersOf (net : Responder) (n : Nat) (bai since : String) (p : Paper) :
    p ∈ papersOf net n bai since ↔
      ∃ ps, (fetchForAuthor net n bai since).1 = .ok ps ∧ p ∈ ps := by
  unfold papersOf
  cases h : (fetchForAuthor net n bai since).1 with
  | error e => simp
  | ok ps => simp

theorem fetchLoop_inv (net : Responder) (since : String) (hwf : WellFormed net)
    (bais : List String) :
    ∀ (n : Nat) (flat : List (String × Paper)) (agg : Aggregate) (evs : List Event),
      Inv flat agg →
      ∃ agg1, fetchLoop net since n bais (agg, evs)
          = .ok (agg1, evs ++ eventsFrom net since n bais) ∧
        Inv (flat ++ pairsFrom net since n bais) agg1 := by
  induction bais with
  | nil =>
    intro n flat agg evs h
    exact ⟨agg, by simp [fetchLoop, eventsFrom], by simpa [pairsFrom] using h⟩
  | cons bai rest ih =>
    intro n flat agg evs h
    obtain ⟨ps, hps⟩ := fetchForAuthor_ok net hwf n bai since
    have hpo := papersOf_of_ok net n bai since ps hps
    obtain ⟨agg1, h1, hinv1⟩ := addPapers_inv bai ps flat agg h
    obtain ⟨agg2, h2, hinv2⟩ := ih (n + 1) _ agg1 (evs ++ (fetchForAuthor net n bai since).2) hinv1
    refine ⟨agg2, ?_, ?_⟩
    · simp only [fetchLoop, hps, h1, h2, eventsFrom, List.append_assoc]
    · simpa [pairsFrom, hpo, List.append_assoc] using hinv2

theorem mem_pairsFrom (net : Responder) (since : String) (bai : String) (p : Paper)
    (bais : List String) :
    ∀ n, (bai, p) ∈ pairsFrom net since n bais ↔
      ∃ i, bais[i]? = some bai ∧ p ∈ papersOf net (n + i) bai since := by
  induction bais with
  | nil => intro n; simp [pairsFrom]
  | cons b rest ih =>
    intro n
    simp only [pairsFrom, List.mem_append, List.mem_map, Prod.mk.injEq, ih]
    constructor
    · rintro (⟨q, hq, hb, hqp⟩ | ⟨i, hi, hp⟩)
      · subst hb; subst hqp
        exact ⟨0, by simp, by simpa using hq⟩
      · refine ⟨i + 1, by simpa using hi, ?_⟩
        have : n + (i + 1) = n + 1 + i := by omega
        rw [this]; exact hp
    · rintro ⟨i, hi, hp⟩
      cases i with
      | zero =>
        simp only [List.getElem?_cons_zero, Option.some.injEq] at hi
        subst hi
        exact Or.inl ⟨p, by simpa using hp, rfl, rfl⟩
      | succ j =>
        refine Or.inr ⟨j, by simpa using hi, ?_⟩
        have : n + 1 + j = n + (j + 1) := by omega
        rw [this]; exact hp

theorem returned_iff_pairs (net : Responder) (since : String) (bais : List String)
    (bai id : String) :
    (∃ f ∈ pairsFrom net since 0 bais, f.1 = bai ∧ f.2.inspire_id = id) ↔
      Returned net since bais bai id := by
  unfold Returned
  constructor
  · rintro ⟨f, hf, h1, h2⟩
    have hf2 : (f.1, f.2) ∈ pairsFrom net since 0 bais := hf
    obtain ⟨i, hi, hp⟩ := (mem_pairsFrom net since f.1 f.2 bais 0).mp hf2
    rw [Nat.zero_add] at hp
    subst h1
    obtain ⟨ps, hps, hmem⟩ := (mem_papersOf net i f.1 since f.2).mp hp
    exact ⟨i, hi, ps, hps, f.2, hmem, h2⟩
  · rintro ⟨n, hn, ps, hps, p, hp, hid⟩
    refine ⟨(bai, p), ?_, rfl, hid⟩
    apply (mem_pairsFrom net since bai p bais 0).mpr
    refine ⟨n, hn, ?_⟩
    rw [Nat.zero_add]
    exact (mem_papersOf net n bai since p).mpr ⟨ps, hps, hp⟩

/-! ## Built-ins: search, comparison, sort -/

theorem includesAux_iff (kw : List Char) : ∀ text : List Char,
    includesAux kw text = true ↔ kw <:+: text
  | [] => by
    simp only [includesAux, List.isPrefixOf_iff_prefix, List.prefix_nil, List.infix_nil]
  | c :: cs => by
    simp only [includesAux, Bool.or_eq_true, List.isPrefixOf_iff_prefix, includesAux_iff kw cs,
      List.infix_cons_iff]

theorem includes_iff (text kw : String) : includes text kw = true ↔ kw.data <:+: text.data :=
  includesAux_iff kw.data text.data

theorem char_lt_iff (a b : Char) : a < b ↔ a.toNat < b.toNat := by
  rw [Char.lt_iff_val_lt_val]
  exact Iff.rfl

theorem char_eq_of_toNat (a b : Char) (h1 : ¬ a.toNat < b.toNat) (h2 : ¬ b.toNat < a.toNat) :
    a = b := by
  have h3 : ¬ a < b := fun h => h1 ((char_lt_iff a b).mp h)
  have h4 : ¬ b < a := fun h => h2 ((char_lt_iff b a).mp h)
  exact le_antisymm (not_lt.mp h4) (not_lt.mp h3)

theorem compareChars_lt_iff : ∀ (l1 l2 : List Char), compareChars l1 l2 < 0 ↔ l1 < l2
  | [], [] => by simp [compareChars]
  | [], b :: bs => by simp [compareChars, List.nil_lt_cons]
  | a :: as, [] => by
    simp only [compareChars]
    constructor
    · intro h; omega
    · intro h; exact absurd h (by simp)
  | a :: as, b :: bs => by
    have ih := compareChars_lt_iff as bs
    simp only [compareChars]
    by_cases h1 : a.toNat < b.toNat
    · simp only [h1, if_true]
      constructor
      · intro _; exact List.Lex.rel ((char_lt_iff a b).mpr h1)
      · intro _; omega
    · by_cases h2 : b.toNat < a.toNat
      · simp only [h1, h2, if_true, if_false]
        constructor
        · intro h; omega
        · intro h
          have : b :: bs < a :: as := List.Lex.rel ((char_lt_iff b a).mpr h2)
          exact absurd h (lt_asymm this)
      · simp only [h1, h2, if_false]
        have hab := char_eq_of_toNat a b h1 h2
        subst hab
        rw [ih]
        constructor
        · intro h; exact List.Lex.cons h
        · intro h
          cases h with
          | cons h => exact h
          | rel h => exact absurd h (lt_irrefl _)

theorem compareChars_gt_iff : ∀ (l1 l2 : List Char), 0 < compareChars l1 l2 ↔ l2 < l1
  | [], [] => by simp [compareChars]
  | [], b :: bs => by
    simp only [compareChars]
    constructor
    · intro h; omega
    · intro h; exact absurd h (by simp)
  | a :: as, [] => by simp [compareChars, List.nil_lt_cons]
  | a :: as, b :: bs => by
    have ih := compareChars_gt_iff as bs
    simp only [compareChars]
    by_cases h1 : a.toNat < b.toNat
    · simp only [h1, if_true]
      constructor
      · intro h; omega
      · intro h
        have : a :: as < b :: bs := List.Lex.rel ((char_lt_iff a b).mpr h1)
        exact absurd h (lt_asymm this)
    · by_cases h2 : b.toNat < a.toNat
      · simp only [h1, h2, if_true, if_false]
        constructor
        · intro _; exact List.Lex.rel ((char_lt_iff b a).mpr h2)
        · intro _; omega
      · simp only [h1, h2, if_false]
        have hab := char_eq_of_toNat a b h1 h2
        subst hab
        rw [ih]
        constructor
        · intro h; exact List.Lex.cons h
        · intro h
          cases h with
          | cons h => exact h
          | rel h => exact absurd h (lt_irrefl _)

/-- The sign of the comparison by code point is the order of the strings. -/
theorem codePointCompare_lt_iff (a b : String) : codePointCompare a b < 0 ↔ a < b := by
  unfold codePointCompare
  rw [compareChars_lt_iff, String.lt_iff_toList_lt]
  rfl

theorem codePointCompare_gt_iff (a b : String) : 0 < codePointCompare a b ↔ b < a := by
  unfold codePointCompare
  rw [compareChars_gt_iff, String.lt_iff_toList_lt]
  rfl

/-- The comparison by code point is a collation a host may have. -/
theorem hostCollation_codePoint : HostCollation codePointCompare where
  antisymm := by
    intro a b h
    rw [codePointCompare_lt_iff]
    exact (codePointCompare_gt_iff a b).mp h
  trans := by
    intro a b c h1 h2
    have e1 : a ≤ b := not_lt.mp (fun hh => absurd ((codePointCompare_gt_iff a b).mpr hh)
      (not_lt.mpr h1))
    have e2 : b ≤ c := not_lt.mp (fun hh => absurd ((codePointCompare_gt_iff b c).mpr hh)
      (not_lt.mpr h2))
    have e3 : ¬ c < a := not_lt.mpr (le_trans e1 e2)
    exact not_lt.mp (fun hh => e3 ((codePointCompare_gt_iff a c).mp hh))
  dates := fun a b _ _ => codePointCompare_gt_iff a b

theorem sortInsert_perm {α : Type} (cmp : α → α → Int) (x : α) :
    ∀ l : List α, (sortInsert cmp x l).Perm (x :: l)
  | [] => List.Perm.refl _
  | y :: ys => by
    unfold sortInsert
    by_cases h : 0 < cmp x y
    · simp only [h, if_true]
      exact ((sortInsert_perm cmp x ys).cons y).trans (List.Perm.swap x y ys)
    · simp only [h, if_false]
      exact List.Perm.refl _

theorem jsSort_perm {α : Type} (cmp : α → α → Int) : ∀ l : List α, (jsSort cmp l).Perm l
  | [] => List.Perm.refl _
  | x :: xs => by
    unfold jsSort
    exact (sortInsert_perm cmp x _).trans ((jsSort_perm cmp xs).cons x)

/-- With a consistent comparator, insertion keeps a list in which no element is
put after one that stands behind it. -/
theorem sortInsert_sorted {α : Type} (cmp : α → α → Int)
    (hanti : ∀ a b, 0 < cmp a b → cmp b a ≤ 0)
    (htrans : ∀ a b c, cmp a b ≤ 0 → cmp b c ≤ 0 → cmp a c ≤ 0) (x : α) :
    ∀ l : List α, l.Pairwise (fun a b => cmp a b ≤ 0) →
      (sortInsert cmp x l).Pairwise (fun a b => cmp a b ≤ 0)
  | [], _ => by simp [sortInsert]
  | y :: ys, h => by
    unfold sortInsert
    rw [List.pairwise_cons] at h
    by_cases hxy : 0 < cmp x y
    · simp only [hxy, if_true]
      refine List.pairwise_cons.mpr ⟨?_, sortInsert_sorted cmp hanti htrans x ys h.2⟩
      intro z hz
      rcases List.mem_cons.mp ((sortInsert_perm cmp x ys).subset hz) with hz | hz
      · rw [hz]; exact hanti x y hxy
      · exact h.1 z hz
    · simp only [hxy, if_false]
      have hle : cmp x y ≤ 0 := not_lt.mp hxy
      refine List.pairwise_cons.mpr ⟨?_, List.pairwise_cons.mpr h⟩
      intro z hz
      rcases List.mem_cons.mp hz with hz | hz
      · rw [hz]; exact hle
      · exact htrans x y z hle (h.1 z hz)

theorem jsSort_sorted {α : Type} (cmp : α → α → Int)
    (hanti : ∀ a b, 0 < cmp a b → cmp b a ≤ 0)
    (htrans : ∀ a b c, cmp a b ≤ 0 → cmp b c ≤ 0 → cmp a c ≤ 0) :
    ∀ l : List α, (jsSort cmp l).Pairwise (fun a b => cmp a b ≤ 0)
  | [] => List.Pairwise.nil
  | x :: xs => by
    unfold jsSort
    exact sortInsert_sorted cmp hanti htrans x _ (jsSort_sorted cmp hanti htrans xs)

/-! ## The filter loop -/

theorem filterLoop_spec (pa : List (String × List String)) :
    ∀ ap : List (String × Paper), (∀ e ∈ ap, ∃ s, mapGet pa e.1 = some s) →
      ∃ out, filterLoop pa ap = .ok out ∧
        List.Forall₂ (Projects pa)
          (ap.filter (fun e => matchesKeywords e.2.title e.2.abstract)) out
  | [], _ => ⟨[], rfl, by simp⟩
  | (id, paper) :: rest, h => by
    obtain ⟨out, hout, hall⟩ :=
      filterLoop_spec pa rest (fun e he => h e (List.mem_cons_of_mem _ he))
    by_cases hm : matchesKeywords paper.title paper.abstract = true
    · obtain ⟨s, hs⟩ := h (id, paper) (List.mem_cons_self _ _)
      refine ⟨{ title := paper.title, authors := paper.authors, eucaif_authors := s,
                arxiv := paper.arxiv, date := paper.date, abstract := paper.abstract } :: out,
              ?_, ?_⟩
      · simp only [filterLoop, hm, if_true]
        simp only at hs
        rw [hs, hout]
      · rw [List.filter_cons_of_pos (by simpa using hm)]
        exact List.Forall₂.cons ⟨rfl, rfl, rfl, rfl, rfl, hs⟩ hall
    · refine ⟨out, ?_, ?_⟩
      · simp only [filterLoop, hm]
        exact hout
      · rw [List.filter_cons_of_neg (by simpa using hm)]
        exact hall

/-! ## The run as a whole -/

/-- A run of `main` on a service whose hits carry their `metadata` completes; its
aggregate satisfies the invariant for the pairs of all requests, and its output
is the sorted result of the filter. -/
theorem main_spec (localeCompare : String → String → Int) (members : List Member)
    (net : Service) (now : Int) :
    ∃ run filtered, main localeCompare members net.respond now = .ok run ∧
      fetchLoop net.respond (sixMonthsAgo now) 0 (baisOf members)
          ({ allPapers := [], paperAuthors := [] }, []) = .ok (run.aggregate, run.events) ∧
      Inv (pairsFrom net.respond (sixMonthsAgo now) 0 (baisOf members)) run.aggregate ∧
      run.events = eventsFrom net.respond (sixMonthsAgo now) 0 (baisOf members) ∧
      filterLoop run.aggregate.paperAuthors run.aggregate.allPapers = .ok filtered ∧
      run.output = jsSort (byDateDesc localeCompare) filtered ∧
      List.Forall₂ (Projects run.aggregate.paperAuthors)
        (run.aggregate.allPapers.filter (fun e => matchesKeywords e.2.title e.2.abstract))
        filtered := by
  obtain ⟨agg, hloop, hinv⟩ :=
    fetchLoop_inv net.respond (sixMonthsAgo now) net.wellFormed (baisOf members) 0 [] _ []
      inv_empty
  simp only [List.nil_append] at hloop hinv
  have hkeys : ∀ e ∈ agg.allPapers, ∃ s, mapGet agg.paperAuthors e.1 = some s := by
    intro e he
    apply mapGet_isSome_of_mem
    rw [hinv.keys_eq]
    exact List.mem_map.mpr ⟨e, he, rfl⟩
  obtain ⟨filtered, hfil, hall⟩ := filterLoop_spec agg.paperAuthors agg.allPapers hkeys
  refine ⟨{ aggregate := agg, output := jsSort (byDateDesc localeCompare) filtered,
            events := eventsFrom net.respond (sixMonthsAgo now) 0 (baisOf members) }, filtered,
          ?_, hloop, hinv, rfl, hfil, rfl, hall⟩
  simp only [main, hloop, hfil]

theorem forall₂_exists_left {α β : Type} (R : α → β → Prop) {l1 : List α} {l2 : List β}
    (h : List.Forall₂ R l1 l2) : ∀ r ∈ l2, ∃ e ∈ l1, R e r := by
  induction h with
  | nil => intro r hr; simp at hr
  | cons hab _ ih =>
    intro r hr
    rcases List.mem_cons.mp hr with hr | hr
    · subst hr
      exact ⟨_, List.mem_cons_self _ _, hab⟩
    · obtain ⟨e, he, hR⟩ := ih r hr
      exact ⟨e, List.mem_cons_of_mem _ he, hR⟩

/-- Every record of the output comes from an aggregated record that passes the
filter. -/
theorem output_origin (localeCompare : String → String → Int) (members : List Member)
    (net : Service) (now : Int) (run : Run)
    (hrun : main localeCompare members net.respond now = .ok run) :
    ∀ r ∈ run.output, ∃ e ∈ run.aggregate.allPapers,
      matchesKeywords e.2.title e.2.abstract = true ∧
      Projects run.aggregate.paperAuthors e r := by
  obtain ⟨run2, filtered, hmain, _, _, _, _, hout, hall⟩ :=
    main_spec localeCompare members net now
  rw [hrun] at hmain
  cases hmain
  intro r hr
  rw [hout] at hr
  have hr2 : r ∈ filtered := (jsSort_perm (byDateDesc localeCompare) filtered).subset hr
  obtain ⟨e, he, hproj⟩ := forall₂_exists_left _ hall r hr2
  rw [List.mem_filter] at he
  exact ⟨e, he.1, he.2, hproj⟩

theorem ok_of_toOption {ε α : Type} (x : Except ε α) (a : α) (h : x.toOption = some a) :
    x = .ok a := by
  cases x with
  | error e => simp [Except.toOption] at h
  | ok b =>
    simp only [Except.toOption, Option.some.injEq] at h
    rw [h]

/-! ## Aggregation -/

/-- C1.  Every run of `main` completes, and for every aggregated record the
credited set that `paperAuthors` holds under the record's identifier has no
repetition and consists of exactly the roster identifiers whose query returned
a record with that identifier. -/
theorem credited_authors_exact (localeCompare : String → String → Int)
    (members : List Member) (net : Service) (now : Int) :
    ∃ run, main localeCompare members net.respond now = .ok run ∧
      ∀ e ∈ run.aggregate.allPapers,
        ∃ s, mapGet run.aggregate.paperAuthors e.2.inspire_id = some s ∧ s.Nodup ∧
          ∀ bai, bai ∈ s ↔
            Returned net.respond (sixMonthsAgo now) (baisOf members) bai e.2.inspire_id := by
  obtain ⟨run, _, hmain, _, hinv, _⟩ := main_spec localeCompare members net now
  refine ⟨run, hmain, ?_⟩
  intro e he
  have hid : e.2.inspire_id = e.1 := (hinv.paper e he).1
  have hk : e.1 ∈ run.aggregate.paperAuthors.map Prod.fst := by
    rw [hinv.keys_eq]
    exact List.mem_map.mpr ⟨e, he, rfl⟩
  obtain ⟨s, hs⟩ := mapGet_isSome_of_mem _ _ hk
  obtain ⟨hnd, hcr⟩ := hinv.credit e.1 s hs
  rw [hid]
  refine ⟨s, hs, hnd, ?_⟩
  intro bai
  rw [hcr bai, returned_iff_pairs]

theorem baisOf_rosterAB : baisOf rosterAB = ["A", "B"] := by decide

theorem main_scenarioAB :
    (main codePointCompare rosterAB respondAB midJune).toOption.map (fun r => r.aggregate) =
      some { allPapers := [("R1", plainPaper "R1" "A Neural Network Study" (JsOpt.val "2024-05-01")),
                           ("R2", plainPaper "R2" "Unrelated Topic" (JsOpt.val "2024-06-01"))]
             paperAuthors := [("R1", ["A", "B"]), ("R2", ["B"])] } := by
  decide

/-- C1, on the scenario of the specification: with the roster `[A, B]`, where `A`
returns `R1` and `B` returns `R1` and `R2`, `R1` is credited to `A` and `B` and
`R2` to `B`. -/
theorem credited_authors_exact_witness :
    ∃ run, main codePointCompare rosterAB serviceAB.respond midJune = .ok run ∧
      mapGet run.aggregate.paperAuthors "R1" = some ["A", "B"] ∧
      mapGet run.aggregate.paperAuthors "R2" = some ["B"] ∧
      (∀ bai, bai ∈ ["A", "B"] ↔
        Returned serviceAB.respond (sixMonthsAgo midJune) (baisOf rosterAB) bai "R1") ∧
      (∀ bai, bai ∈ ["B"] ↔
        Returned serviceAB.respond (sixMonthsAgo midJune) (baisOf rosterAB) bai "R2") := by
  obtain ⟨run, hrun, h⟩ := credited_authors_exact codePointCompare rosterAB serviceAB midJune
  have hrun2 : main codePointCompare rosterAB respondAB midJune = .ok run := hrun
  have hagg := main_scenarioAB
  rw [hrun2] at hagg
  simp only [Except.toOption, Option.map_some', Option.some.injEq] at hagg
  have h1 := h ("R1", plainPaper "R1" "A Neural Network Study" (JsOpt.val "2024-05-01"))
    (by rw [hagg]; decide)
  have h2 := h ("R2", plainPaper "R2" "Unrelated Topic" (JsOpt.val "2024-06-01"))
    (by rw [hagg]; decide)
  rw [hagg] at h1 h2
  obtain ⟨s1, hs1, _, hc1⟩ := h1
  obtain ⟨s2, hs2, _, hc2⟩ := h2
  have e1 : s1 = ["A", "B"] := by
    have : mapGet [("R1", ["A", "B"]), ("R2", ["B"])] "R1" = some ["A", "B"] := by decide
    have hh : mapGet [("R1", ["A", "B"]), ("R2", ["B"])] "R1" = some s1 := hs1
    rw [this] at hh
    exact (Option.some.inj hh).symm
  have e2 : s2 = ["B"] := by
    have : mapGet [("R1", ["A", "B"]), ("R2", ["B"])] "R2" = some ["B"] := by decide
    have hh : mapGet [("R1", ["A", "B"]), ("R2", ["B"])] "R2" = some s2 := hs2
    rw [this] at hh
    exact (Option.some.inj hh).symm
  subst e1
  subst e2
  refine ⟨run, hrun, ?_, ?_, hc1, hc2⟩
  · rw [hagg]; decide
  · rw [hagg]; decide

/-- C2.  Every run of `main` completes with an aggregate in which no record
identifier occurs twice (in `allPapers`, and among the keys of `paperAuthors`);
and when the queries of exactly two different roster identifiers `a` and `b`
return a record with the identifier `id`, the aggregate holds exactly one record
with that identifier and its credited set has two members. -/
theorem aggregate_ids_unique (localeCompare : String → String → Int)
    (members : List Member) (net : Service) (now : Int) :
    ∃ run, main localeCompare members net.respond now = .ok run ∧
      (run.aggregate.allPapers.map (fun e => e.2.inspire_id)).Nodup ∧
      (run.aggregate.paperAuthors.map Prod.fst).Nodup ∧
      ∀ a b id : String, a ≠ b →
        (∀ bai, Returned net.respond (sixMonthsAgo now) (baisOf members) bai id ↔
          bai = a ∨ bai = b) →
        (run.aggregate.allPapers.map (fun e => e.2.inspire_id)).count id = 1 ∧
        ∃ s, mapGet run.aggregate.paperAuthors id = some s ∧ s.length = 2 := by
  obtain ⟨run, _, hmain, _, hinv, _⟩ := main_spec localeCompare members net now
  have hids : run.aggregate.allPapers.map (fun e => e.2.inspire_id)
      = run.aggregate.allPapers.map Prod.fst := by
    apply List.map_congr_left
    intro e he
    exact (hinv.paper e he).1
  refine ⟨run, hmain, ?_, ?_, ?_⟩
  · rw [hids]; exact hinv.nodup
  · rw [hinv.keys_eq]; exact hinv.nodup
  · intro a b id hab hret
    have hra : Returned net.respond (sixMonthsAgo now) (baisOf members) a id :=
      (hret a).mpr (Or.inl rfl)
    obtain ⟨f, hf, _, hfid⟩ := (returned_iff_pairs _ _ _ _ _).mpr hra
    have hkey : id ∈ run.aggregate.allPapers.map Prod.fst :=
      (hinv.key_iff id).mpr ⟨f, hf, hfid⟩
    refine ⟨?_, ?_⟩
    · rw [hids]
      exact List.count_eq_one_of_mem hinv.nodup hkey
    · have hk : id ∈ run.aggregate.paperAuthors.map Prod.fst := by
        rw [hinv.keys_eq]; exact hkey
      obtain ⟨s, hs⟩ := mapGet_isSome_of_mem _ _ hk
      obtain ⟨hnd, hcr⟩ := hinv.credit id s hs
      refine ⟨s, hs, ?_⟩
      have hab2 : [a, b].Nodup := by simp [hab]
      have hperm : s.Perm [a, b] := by
        rw [List.perm_ext_iff_of_nodup hnd hab2]
        intro x
        rw [hcr x, returned_iff_pairs, hret x]
        simp
      simpa using hperm.length_eq

theorem fetchAB_first :
    ((fetchForAuthor respondAB 0 "A" (sixMonthsAgo midJune)).1).toOption =
      some [plainPaper "R1" "A Neural Network Study" (JsOpt.val "2024-05-01")] := by
  decide

theorem fetchAB_second :
    ((fetchForAuthor respondAB 1 "B" (sixMonthsAgo midJune)).1).toOption =
      some [plainPaper "R1" "A Neural Network Study" (JsOpt.val "2024-05-01"),
            plainPaper "R2" "Unrelated Topic" (JsOpt.val "2024-06-01")] := by
  decide

theorem returnedAB_R1 (bai : String) :
    Returned serviceAB.respond (sixMonthsAgo midJune) (baisOf rosterAB) bai "R1" ↔
      bai = "A" ∨ bai = "B" := by
  unfold Returned
  rw [baisOf_rosterAB]
  constructor
  · rintro ⟨n, hn, _⟩
    match n, hn with
    | 0, hn => left; simpa using hn.symm
    | 1, hn => right; simpa using hn.symm
    | k + 2, hn => simp at hn
  · rintro (h | h)
    · subst h
      exact ⟨0, rfl, _, ok_of_toOption _ _ fetchAB_first, _, List.mem_cons_self _ _, rfl⟩
    · subst h
      exact ⟨1, rfl, _, ok_of_toOption _ _ fetchAB_second, _, List.mem_cons_self _ _, rfl⟩

/-- C2, on the scenario of the specification: `A` and `B` both return `R1`, which
is aggregated once and credited to two identifiers. -/
theorem aggregate_ids_unique_witness :
    ∃ run, main codePointCompare rosterAB serviceAB.respond midJune = .ok run ∧
      (run.aggregate.allPapers.map (fun e => e.2.inspire_id)).count "R1" = 1 ∧
      ∃ s, mapGet run.aggregate.paperAuthors "R1" = some s ∧ s.length = 2 := by
  obtain ⟨run, hrun, _, _, h⟩ :=
    aggregate_ids_unique codePointCompare rosterAB serviceAB midJune
  exact ⟨run, hrun, h "A" "B" "R1" (by decide) returnedAB_R1⟩

/-! ## Output -/

/-- C4.  Every run of `main` completes, and every record of its output passes the
keyword filter on its own title and abstract. -/
theorem output_matches_keywords (localeCompare : String → String → Int)
    (members : List Member) (net : Service) (now : Int) :
    ∃ run, main localeCompare members net.respond now = .ok run ∧
      ∀ r ∈ run.output, matchesKeywords r.title r.abstract = true := by
  obtain ⟨run, _, hmain, _⟩ := main_spec localeCompare members net now
  refine ⟨run, hmain, ?_⟩
  intro r hr
  obtain ⟨e, _, hm, hproj⟩ := output_origin localeCompare members net now run hmain r hr
  rw [hproj.1, hproj.2.2.2.2.1]
  exact hm

theorem main_scenarioAB_output :
    (main codePointCompare rosterAB respondAB midJune).toOption.map (fun r => r.output) =
      some [{ title := "A Neural Network Study", authors := [], eucaif_authors := ["A", "B"],
              arxiv := JsOpt.null, date := JsOpt.val "2024-05-01", abstract := "" }] := by
  decide

/-- C4, on the scenario of the specification: the one output record, `R1`, passes
the filter. -/
theorem output_matches_keywords_witness :
    ∃ run, main codePointCompare rosterAB serviceAB.respond midJune = .ok run ∧
      run.output.length = 1 ∧
      matchesKeywords "A Neural Network Study" "" = true := by
  obtain ⟨run, hrun, h⟩ := output_matches_keywords codePointCompare rosterAB serviceAB midJune
  have hrun2 : main codePointCompare rosterAB respondAB midJune = .ok run := hrun
  have hout := main_scenarioAB_output
  rw [hrun2] at hout
  simp only [Except.toOption, Option.map_some', Option.some.injEq] at hout
  refine ⟨run, hrun, by rw [hout]; rfl, ?_⟩
  exact h { title := "A Neural Network Study", authors := [], eucaif_authors := ["A", "B"],
            arxiv := JsOpt.null, date := JsOpt.val "2024-05-01", abstract := "" }
    (by rw [hout]; simp)

theorem orElse_val (d : String) : orElse (JsOpt.val d) "" = d := by
  unfold orElse
  by_cases h : d = ""
  · simp [h]
  · simp [h]

theorem empty_lt_of_isIsoDate (d : String) (h : isIsoDate d = true) : "" < d := by
  rw [String.lt_iff_toList_lt]
  obtain ⟨l⟩ := d
  cases l with
  | nil => simp [isIsoDate] at h
  | cons c cs => exact List.nil_lt_cons c cs

/-- C5.  Let the `localeCompare` of the host be a consistent comparator whose
sign on date keys is that of the lexical order.  Then every run of `main`
completes with an output in descending order of date, the records without a date
last: of two output records with ISO dates `d2 < d1` the one dated `d1` stands
before the other, and a record with an ISO date stands before every record whose
date is `null`. -/
theorem output_sorted_by_date (localeCompare : String → String → Int)
    (hloc : HostCollation localeCompare) (members : List Member) (net : Service) (now : Int) :
    ∃ run, main localeCompare members net.respond now = .ok run ∧
      ∀ (i j : Nat) (ri rj : OutputRecord),
        run.output[i]? = some ri → run.output[j]? = some rj →
        (∀ d1 d2, ri.date = JsOpt.val d1 → rj.date = JsOpt.val d2 →
          isIsoDate d1 = true → isIsoDate d2 = true → d2 < d1 → i < j) ∧
        (∀ d1, ri.date = JsOpt.val d1 → isIsoDate d1 = true → rj.date = JsOpt.null →
          i < j) := by
  obtain ⟨run, filtered, hmain, _, _, _, _, hout, _⟩ := main_spec localeCompare members net now
  refine ⟨run, hmain, ?_⟩
  have hsorted : run.output.Pairwise (fun a b => byDateDesc localeCompare a b ≤ 0) := by
    rw [hout]
    apply jsSort_sorted
    · intro a b hab
      exact le_of_lt (hloc.antisymm _ _ hab)
    · intro a b c hab hbc
      exact hloc.trans _ _ _ hbc hab
  rw [List.pairwise_iff_getElem] at hsorted
  intro i j ri rj hi hj
  obtain ⟨hil, hie⟩ := List.getElem?_eq_some.mp hi
  obtain ⟨hjl, hje⟩ := List.getElem?_eq_some.mp hj
  have hback : j < i → localeCompare (orElse ri.date "") (orElse rj.date "") ≤ 0 := by
    intro hji
    have := hsorted j i hjl hil hji
    rw [hie, hje] at this
    exact this
  constructor
  · intro d1 d2 h1 h2 hd1 hd2 hlt
    by_contra hnot
    have hne : i ≠ j := by
      intro hij
      subst hij
      rw [hi] at hj
      have hrr : ri = rj := Option.some.inj hj
      rw [hrr, h2] at h1
      have hdd : d2 = d1 := JsOpt.val.inj h1
      rw [hdd] at hlt
      exact lt_irrefl _ hlt
    have hji : j < i := by omega
    have hle := hback hji
    rw [h1, h2, orElse_val, orElse_val] at hle
    have hgt : 0 < localeCompare d1 d2 := (hloc.dates d1 d2 (Or.inr hd1) (Or.inr hd2)).mpr hlt
    omega
  · intro d1 h1 hd1 h2
    by_contra hnot
    have hne : i ≠ j := by
      intro hij
      subst hij
      rw [hi] at hj
      have hrr : ri = rj := Option.some.inj hj
      rw [hrr, h2] at h1
      cases h1
    have hji : j < i := by omega
    have hle := hback hji
    rw [h1, h2, orElse_val] at hle
    have h0 : orElse JsOpt.null "" = "" := rfl
    rw [h0] at hle
    have hgt : 0 < localeCompare d1 "" :=
      (hloc.dates d1 "" (Or.inr hd1) (Or.inl rfl)).mpr (empty_lt_of_isIsoDate d1 hd1)
    omega

theorem main_scenarioDates_output :
    (main codePointCompare [{ inspire := some "A" }] respondDates midJune).toOption.map
        (fun r => r.output) =
      some [plainRecord "Deep learning in June" (JsOpt.val "2024-06-01"),
            plainRecord "Deep learning in May" (JsOpt.val "2024-05-01"),
            plainRecord "Deep learning undated" JsOpt.null] := by
  decide

/-- C5, on a run that aggregates a record dated May, an undated one and one
dated June, in this order, on a host that collates by code point: June stands
before May, and May before the undated record. -/
theorem output_sorted_by_date_witness :
    ∃ run, main codePointCompare [{ inspire := some "A" }] serviceDates.respond midJune
        = .ok run ∧
      run.output = [plainRecord "Deep learning in June" (JsOpt.val "2024-06-01"),
                    plainRecord "Deep learning in May" (JsOpt.val "2024-05-01"),
                    plainRecord "Deep learning undated" JsOpt.null] ∧
      (0 : Nat) < 1 ∧ (1 : Nat) < 2 := by
  obtain ⟨run, hrun, h⟩ := output_sorted_by_date codePointCompare hostCollation_codePoint
    [{ inspire := some "A" }] serviceDates midJune
  have hrun2 : main codePointCompare [{ inspire := some "A" }] respondDates midJune = .ok run :=
    hrun
  have hout := main_scenarioDates_output
  rw [hrun2] at hout
  simp only [Except.toOption, Option.map_some', Option.some.injEq] at hout
  refine ⟨run, hrun, hout, ?_, ?_⟩
  · exact (h 0 1 (plainRecord "Deep learning in June" (JsOpt.val "2024-06-01"))
      (plainRecord "Deep learning in May" (JsOpt.val "2024-05-01"))
      (by rw [hout]; rfl) (by rw [hout]; rfl)).1 "2024-06-01" "2024-05-01" rfl rfl
      (by decide) (by decide) ((codePointCompare_lt_iff _ _).mp (by decide))
  · exact (h 1 2 (plainRecord "Deep learning in May" (JsOpt.val "2024-05-01"))
      (plainRecord "Deep learning undated" JsOpt.null)
      (by rw [hout]; rfl) (by rw [hout]; rfl)).2 "2024-05-01" rfl (by decide) rfl

/-- C10.  Every run of `main` completes with an output that is a rearrangement
of the list holding, for each aggregated record that passes the keyword filter
and in the order of the aggregate, one output record with the title, author list,
preprint identifier, date and abstract of that record and the credited set kept
under its key. -/
theorem output_is_filtered_aggregate (localeCompare : String → String → Int)
    (members : List Member) (net : Service) (now : Int) :
    ∃ run filtered, main localeCompare members net.respond now = .ok run ∧
      run.output.Perm filtered ∧
      List.Forall₂
        (fun e r => r.title = e.2.title ∧ r.authors = e.2.authors ∧ r.arxiv = e.2.arxiv ∧
          r.date = e.2.date ∧ r.abstract = e.2.abstract ∧
          mapGet run.aggregate.paperAuthors e.1 = some r.eucaif_authors)
        (run.aggregate.allPapers.filter (fun e => matchesKeywords e.2.title e.2.abstract))
        filtered := by
  obtain ⟨run, filtered, hmain, _, _, _, _, hout, hall⟩ :=
    main_spec localeCompare members net now
  refine ⟨run, filtered, hmain, ?_, hall⟩
  rw [hout]
  exact jsSort_perm (byDateDesc localeCompare) filtered

/-! ## Queries -/

theorem hitToPaper_fields (hit : Hit) (m : Metadata) (hm : hit.metadata = JsOpt.val m) :
    hitToPaper hit = .ok
      { inspire_id := idString hit.id
        title := orElse (chain (first? m.titles) TitleEntry.title) ""
        authors := (orEmpty m.authors).map AuthorEntry.full_name
        arxiv := orNull (chain (first? m.arxiv_eprints) EprintEntry.value)
        date := orNull m.preprint_date
        abstract := orElse (chain (first? m.abstracts) AbstractEntry.value) "" } := by
  unfold hitToPaper
  rw [hm]

/-- C6, at a failing input.  On a success response whose one hit has an
identifier and no `metadata`, so that all five optional fields are missing from
the hit, `fetchForAuthor` raises a `TypeError` and returns no records. -/
theorem fetchForAuthor_without_metadata :
    (okResponse [hitWithoutMetadata]).ok = true ∧
      (fetchForAuthor (fun _ _ => okResponse [hitWithoutMetadata]) 0 "A" "2024-01-01").1
        = .error JsError.typeError ∧
      ¬ ∃ ps, (fetchForAuthor (fun _ _ => okResponse [hitWithoutMetadata]) 0 "A"
        "2024-01-01").1 = .ok ps := by
  have herr : (fetchForAuthor (fun _ _ => okResponse [hitWithoutMetadata]) 0 "A"
      "2024-01-01").1 = .error JsError.typeError := rfl
  refine ⟨rfl, herr, ?_⟩
  rintro ⟨ps, hps⟩
  rw [herr] at hps
  cases hps

/-- What `fetchForAuthor` does on a success response.  When the hits all carry a
`metadata` object it does not raise and returns one record per hit, in order,
each built by `hitToPaper`; when a hit lacks its `metadata` the call raises a
`TypeError`.  For a hit with `metadata`, whichever optional fields are missing
(`undefined` or `null`) from it, the record has the empty string for a missing
title or abstract, the empty list for a missing author list, and `null` for a
missing preprint identifier or date, while a title, abstract, author list,
preprint identifier and date that are present (and, for the last two, not empty)
are taken over. -/
theorem fetchForAuthor_maps_hits (net : Responder) (n : Nat) (bai since : String)
    (hok : (net n (queryFor bai since)).ok = true) :
    ((∀ hit ∈ hitsOf (net n (queryFor bai since)).data, ∃ m, hit.metadata = JsOpt.val m) →
        ∃ ps, (fetchForAuthor net n bai since).1 = .ok ps ∧
          List.Forall₂ (fun hit p => hitToPaper hit = .ok p)
            (hitsOf (net n (queryFor bai since)).data) ps) ∧
      ((∃ hit ∈ hitsOf (net n (queryFor bai since)).data, ∀ m, hit.metadata ≠ JsOpt.val m) →
        (fetchForAuthor net n bai since).1 = .error JsError.typeError) ∧
      ∀ (hit : Hit) (m : Metadata), hit.metadata = JsOpt.val m →
        ∃ p, hitToPaper hit = .ok p ∧
          (∀ v, hit.id = JsOpt.val v → p.inspire_id = v) ∧
          (hit.id = JsOpt.null → p.inspire_id = "null") ∧
          (hit.id = JsOpt.undefined → p.inspire_id = "undefined") ∧
          ((Missing m.titles ∨ m.titles = JsOpt.val [] ∨
              ∃ t rest, m.titles = JsOpt.val (t :: rest) ∧ Missing t.title) →
            p.title = "") ∧
          (∀ t rest v, m.titles = JsOpt.val (t :: rest) → t.title = JsOpt.val v →
            p.title = v) ∧
          ((Missing m.abstracts ∨ m.abstracts = JsOpt.val [] ∨
              ∃ t rest, m.abstracts = JsOpt.val (t :: rest) ∧ Missing t.value) →
            p.abstract = "") ∧
          (∀ t rest v, m.abstracts = JsOpt.val (t :: rest) → t.value = JsOpt.val v →
            p.abstract = v) ∧
          (Missing m.authors → p.authors = []) ∧
          (∀ l, m.authors = JsOpt.val l → p.authors = l.map AuthorEntry.full_name) ∧
          ((Missing m.arxiv_eprints ∨ m.arxiv_eprints = JsOpt.val [] ∨
              ∃ t rest, m.arxiv_eprints = JsOpt.val (t :: rest) ∧ Missing t.value) →
            p.arxiv = JsOpt.null) ∧
          (∀ t rest v, m.arxiv_eprints = JsOpt.val (t :: rest) → t.value = JsOpt.val v →
            v ≠ "" → p.arxiv = JsOpt.val v) ∧
          (Missing m.preprint_date → p.date = JsOpt.null) ∧
          (∀ d, m.preprint_date = JsOpt.val d → d ≠ "" → p.date = JsOpt.val d) := by
  have hfetch : (fetchForAuthor net n bai since).1
      = mapHits (hitsOf (net n (queryFor bai since)).data) := by
    simp [fetchForAuthor, hok]
  refine ⟨?_, ?_, ?_⟩
  · intro hmeta
    obtain ⟨ps, hps, hall⟩ := mapHits_ok _ hmeta
    exact ⟨ps, by rw [hfetch, hps], hall⟩
  · intro hbad
    rw [hfetch]
    exact mapHits_error _ hbad
  · intro hit m hm
    refine ⟨_, hitToPaper_fields hit m hm, ?_, ?_, ?_, ?_, ?_, ?_, ?_, ?_, ?_, ?_, ?_, ?_, ?_⟩
    · intro v hv
      simp [hv, idString]
    · intro hv
      simp [hv, idString]
    · intro hv
      simp [hv, idString]
    · rintro ((h | h) | h | ⟨t, rest, h, (ht | ht)⟩)
      · simp [h, first?, chain, orElse]
      · simp [h, first?, chain, orElse]
      · simp [h, first?, chain, orElse]
      · simp [h, first?, chain, orElse, ht]
      · simp [h, first?, chain, orElse, ht]
    · intro t rest v h ht
      by_cases hv : v = ""
      · simp [h, first?, chain, orElse, ht, hv]
      · simp [h, first?, chain, orElse, ht, hv]
    · rintro ((h | h) | h | ⟨t, rest, h, (ht | ht)⟩)
      · simp [h, first?, chain, orElse]
      · simp [h, first?, chain, orElse]
      · simp [h, first?, chain, orElse]
      · simp [h, first?, chain, orElse, ht]
      · simp [h, first?, chain, orElse, ht]
    · intro t rest v h ht
      by_cases hv : v = ""
      · simp [h, first?, chain, orElse, ht, hv]
      · simp [h, first?, chain, orElse, ht, hv]
    · rintro (h | h)
      · simp [h, orEmpty]
      · simp [h, orEmpty]
    · intro l h
      simp [h, orEmpty]
    · rintro ((h | h) | h | ⟨t, rest, h, (ht | ht)⟩)
      · simp [h, first?, chain, orNull]
      · simp [h, first?, chain, orNull]
      · simp [h, first?, chain, orNull]
      · simp [h, first?, chain, orNull, ht]
      · simp [h, first?, chain, orNull, ht]
    · intro t rest v h ht hv
      simp [h, first?, chain, orNull, ht, hv]
    · rintro (h | h)
      · simp [h, orNull]
      · simp [h, orNull]
    · intro d h hd
      simp [h, orNull, hd]

/-- On a success response whose one hit has an identifier and an empty
`metadata`, the call returns one record, with the identifier and the default of
every other field. -/
theorem fetchForAuthor_maps_hits_witness :
    ∃ ps p, (fetchForAuthor (fun _ _ => okResponse [bareHit]) 0 "A" "2024-01-01").1 = .ok ps ∧
      List.Forall₂ (fun hit q => hitToPaper hit = .ok q) [bareHit] ps ∧
      hitToPaper bareHit = .ok p ∧ p.inspire_id = "77" ∧ p.title = "" ∧ p.abstract = "" ∧
      p.authors = [] ∧ p.arxiv = JsOpt.null ∧ p.date = JsOpt.null := by
  obtain ⟨hmap, _, hfields⟩ :=
    fetchForAuthor_maps_hits (fun _ _ => okResponse [bareHit]) 0 "A" "2024-01-01" rfl
  have hmeta : ∀ hit ∈ hitsOf (okResponse [bareHit]).data, ∃ m, hit.metadata = JsOpt.val m := by
    intro hit hmem
    have hh : hit = bareHit := by
      simpa [okResponse, hitsOf, chain, orEmpty] using hmem
    exact ⟨_, by rw [hh]; rfl⟩
  obtain ⟨ps, hps, hall⟩ := hmap hmeta
  obtain ⟨p, hp, hid, _, _, htitle, _, habs, _, hauth, _, harx, _, hdate, _⟩ :=
    hfields bareHit _ rfl
  exact ⟨ps, p, hps, hall, hp, hid "77" rfl, htitle (Or.inl (Or.inl rfl)),
    habs (Or.inl (Or.inl rfl)), hauth (Or.inl rfl), harx (Or.inl (Or.inl rfl)),
    hdate (Or.inl rfl)⟩

theorem requestsOf_append (xs ys : List Event) :
    requestsOf (xs ++ ys) = requestsOf xs ++ requestsOf ys := by
  induction xs with
  | nil => rfl
  | cons e rest ih =>
    cases e with
    | request q => simp [requestsOf, ih]
    | warn msg => simp [requestsOf, ih]

theorem requestsOf_fetchForAuthor (net : Responder) (n : Nat) (bai since : String) :
    requestsOf (fetchForAuthor net n bai since).2 = [queryFor bai since] := by
  unfold fetchForAuthor
  by_cases hok : (net n (queryFor bai since)).ok = true
  · simp [hok, requestsOf]
  · simp [hok, requestsOf]

theorem requestsOf_eventsFrom (net : Responder) (since : String) (bais : List String) :
    ∀ n, requestsOf (eventsFrom net since n bais) = bais.map (fun bai => queryFor bai since) := by
  induction bais with
  | nil => intro n; rfl
  | cons bai rest ih =>
    intro n
    simp only [eventsFrom, requestsOf_append, requestsOf_fetchForAuthor, ih, List.map_cons,
      List.singleton_append]

/-- The loop reads the service only through what `fetchForAuthor` returns. -/
theorem fetchLoop_congr (net1 net2 : Responder) (since : String)
    (h : ∀ n bai, (fetchForAuthor net1 n bai since).1 = (fetchForAuthor net2 n bai since).1)
    (bais : List String) :
    ∀ (n : Nat) (agg : Aggregate) (evs1 evs2 : List Event) (r1 r2 : Aggregate × List Event),
      fetchLoop net1 since n bais (agg, evs1) = .ok r1 →
      fetchLoop net2 since n bais (agg, evs2) = .ok r2 → r1.1 = r2.1 := by
  induction bais with
  | nil =>
    intro n agg evs1 evs2 r1 r2 h1 h2
    simp only [fetchLoop, Except.ok.injEq] at h1 h2
    rw [← h1, ← h2]
  | cons bai rest ih =>
    intro n agg evs1 evs2 r1 r2 h1 h2
    simp only [fetchLoop] at h1 h2
    rw [← h n bai] at h2
    cases hf : (fetchForAuthor net1 n bai since).1 with
    | error e => rw [hf] at h1; simp at h1
    | ok papers =>
      rw [hf] at h1 h2
      simp only at h1 h2
      cases hadd : addPapers bai agg papers with
      | error e => rw [hadd] at h1; simp at h1
      | ok agg1 =>
        rw [hadd] at h1 h2
        exact ih (n + 1) agg1 _ _ r1 r2 h1 h2

theorem fetchForAuthor_failed (net : Responder) (n : Nat) (bai since : String)
    (hfail : (net n (queryFor bai since)).ok = false) :
    (fetchForAuthor net n bai since).1 = .ok [] := by
  simp [fetchForAuthor, hfail]

/-- C7.  Let `net2` answer like `net1`, except that where `net1` answers with a
non-success status `net2` may answer with a success without hits.  Then a
failed query returns the empty list, both runs of `main` complete with the same
aggregate and the same output, and in both one request is made for every roster
identifier, in order. -/
theorem failed_query_contributes_nothing (localeCompare : String → String → Int)
    (members : List Member) (net1 net2 : Service) (now : Int)
    (h : ∀ n q, net2.respond n q = net1.respond n q ∨
      ((net1.respond n q).ok = false ∧ (net2.respond n q).ok = true ∧
        hitsOf (net2.respond n q).data = [])) :
    (∀ n bai since, (net1.respond n (queryFor bai since)).ok = false →
        (fetchForAuthor net1.respond n bai since).1 = .ok []) ∧
      ∃ run1 run2, main localeCompare members net1.respond now = .ok run1 ∧
        main localeCompare members net2.respond now = .ok run2 ∧
        run1.aggregate = run2.aggregate ∧ run1.output = run2.output ∧
        requestsOf run1.events
          = (baisOf members).map (fun bai => queryFor bai (sixMonthsAgo now)) ∧
        requestsOf run2.events
          = (baisOf members).map (fun bai => queryFor bai (sixMonthsAgo now)) := by
  refine ⟨fun n bai since hf => fetchForAuthor_failed net1.respond n bai since hf, ?_⟩
  have hsame : ∀ n bai, (fetchForAuthor net1.respond n bai (sixMonthsAgo now)).1
      = (fetchForAuthor net2.respond n bai (sixMonthsAgo now)).1 := by
    intro n bai
    rcases h n (queryFor bai (sixMonthsAgo now)) with heq | ⟨hf, hs, hnone⟩
    · simp only [fetchForAuthor, heq]
    · rw [fetchForAuthor_failed net1.respond n bai _ hf]
      simp [fetchForAuthor, hs, hnone, mapHits]
  obtain ⟨run1, fil1, hmain1, hloop1, _, hev1, hfil1, hout1, _⟩ :=
    main_spec localeCompare members net1 now
  obtain ⟨run2, fil2, hmain2, hloop2, _, hev2, hfil2, hout2, _⟩ :=
    main_spec localeCompare members net2 now
  have hagg : run1.aggregate = run2.aggregate :=
    fetchLoop_congr net1.respond net2.respond _ hsame _ 0 _ _ _ _ _ hloop1 hloop2
  refine ⟨run1, run2, hmain1, hmain2, hagg, ?_, ?_, ?_⟩
  · rw [hagg, hfil2] at hfil1
    have : fil2 = fil1 := Except.ok.inj hfil1
    rw [hout1, hout2, this]
  · rw [hev1, requestsOf_eventsFrom]
  · rw [hev2, requestsOf_eventsFrom]

theorem main_serviceX_output :
    (main codePointCompare rosterAXB respondX midJune).toOption.map
        (fun r => (r.aggregate.paperAuthors, r.output)) =
      some ([("R1", ["A", "B"]), ("R2", ["B"])],
            [{ title := "A Neural Network Study", authors := [], eucaif_authors := ["A", "B"],
               arxiv := JsOpt.null, date := JsOpt.val "2024-05-01", abstract := "" }]) := by
  decide

/-- C7, on the scenario of the specification: the query for `X` fails with
status 500; the run is the one of the service that answers `X` without hits, the
records of `A` and `B` are aggregated, and the three queries are made. -/
theorem failed_query_contributes_nothing_witness :
    (serviceX.respond 1 (queryFor "X" (sixMonthsAgo midJune))).status = 500 ∧
      ∃ run1 run2, main codePointCompare rosterAXB serviceX.respond midJune = .ok run1 ∧
        main codePointCompare rosterAXB (withoutFailures serviceX).respond midJune = .ok run2 ∧
        run1.aggregate = run2.aggregate ∧ run1.output = run2.output ∧
        run1.aggregate.paperAuthors = [("R1", ["A", "B"]), ("R2", ["B"])] ∧
        requestsOf run1.events = ["a A and de > 2023-12-15", "a X and de > 2023-12-15",
                                  "a B and de > 2023-12-15"] := by
  have hrel : ∀ n q, (withoutFailures serviceX).respond n q = serviceX.respond n q ∨
      ((serviceX.respond n q).ok = false ∧ ((withoutFailures serviceX).respond n q).ok = true ∧
        hitsOf ((withoutFailures serviceX).respond n q).data = []) := by
    intro n q
    show (if (serviceX.respond n q).ok = true then serviceX.respond n q else okResponse [])
        = serviceX.respond n q ∨
      ((serviceX.respond n q).ok = false ∧
        (if (serviceX.respond n q).ok = true then serviceX.respond n q
          else okResponse []).ok = true ∧
        hitsOf (if (serviceX.respond n q).ok = true then serviceX.respond n q
          else okResponse []).data = [])
    by_cases hok : (serviceX.respond n q).ok = true
    · left; simp [hok]
    · right
      have hf : (serviceX.respond n q).ok = false := by simpa using hok
      simp only [hf, Bool.false_eq_true, if_false]
      exact ⟨trivial, rfl, rfl⟩
  obtain ⟨_, run1, run2, h1, h2, hagg, hout, hreq, _⟩ :=
    failed_query_contributes_nothing codePointCompare rosterAXB serviceX
      (withoutFailures serviceX) midJune hrel
  have h1b : main codePointCompare rosterAXB respondX midJune = .ok run1 := h1
  have hx := main_serviceX_output
  rw [h1b] at hx
  simp only [Except.toOption, Option.map_some', Option.some.injEq, Prod.mk.injEq] at hx
  refine ⟨by decide, run1, run2, h1, h2, hagg, hout, hx.1, ?_⟩
  rw [hreq]
  decide

/-- The identifiers queried are those of the roster entries that carry one. -/
theorem baisOf_eq (members : List Member) :
    baisOf members = (members.filterMap Member.inspire).filter (fun s => s ≠ "") := by
  induction members with
  | nil => rfl
  | cons m rest ih =>
    unfold baisOf at ih ⊢
    simp only [List.filterMap_cons]
    cases hm : m.inspire with
    | none =>
      have ht : truthy none = false := rfl
      simp only [ht, Bool.false_eq_true, if_false]
      exact ih
    | some v =>
      by_cases hv : v = ""
      · have ht : truthy (some v) = false := by simp [truthy, hv]
        simp only [ht, Bool.false_eq_true, if_false]
        rw [List.filter_cons_of_neg (by simp [hv])]
        exact ih
      · have ht : truthy (some v) = true := by simp [truthy, hv]
        simp only [ht, if_true]
        rw [List.filter_cons_of_pos (by simp [hv]), ih]

/-- C8.  Every run of `main` completes, and the queries it makes are, in roster
order, one for the author identifier of every roster entry that carries one (a
string that is not empty), and no other. -/
theorem queries_follow_roster (localeCompare : String → String → Int)
    (members : List Member) (net : Service) (now : Int) :
    ∃ run, main localeCompare members net.respond now = .ok run ∧
      requestsOf run.events =
        ((members.filterMap Member.inspire).filter (fun s => s ≠ "")).map
          (fun bai => queryFor bai (sixMonthsAgo now)) := by
  obtain ⟨run, _, hmain, _, _, hev, _⟩ := main_spec localeCompare members net now
  refine ⟨run, hmain, ?_⟩
  rw [hev, requestsOf_eventsFrom, baisOf_eq]

/-! ## Keyword predicate and cutoff -/

/-- C3, as stated, fails: for the title `machine` and the abstract `learning`
the predicate holds, while no keyword occurs in the lower-cased concatenation
`machinelearning`. -/
theorem matchesKeywords_concat_counterexample :
    ¬ (matchesKeywords "machine" "learning" = true ↔
        ∃ kw ∈ KEYWORDS, kw.data <:+: (toLowerCase ("machine" ++ "learning")).data) := by
  intro h
  obtain ⟨kw, hkw, hin⟩ := h.mp (by decide)
  have hinc : includes (toLowerCase ("machine" ++ "learning")) kw = true :=
    (includes_iff _ _).mpr hin
  have hnone : KEYWORDS.all (fun kw => !includes (toLowerCase ("machine" ++ "learning")) kw)
      = true := by decide
  have := List.all_eq_true.mp hnone kw hkw
  rw [hinc] at this
  exact absurd this (by decide)

/-- C3, amended.  `matchesKeywords` holds exactly when some keyword of `KEYWORDS`
occurs, as a contiguous run of characters, in the lower-cased text made of the
title, one space and the abstract. -/
theorem matchesKeywords_spaced (title abstract : String) :
    matchesKeywords title abstract = true ↔
      ∃ kw ∈ KEYWORDS, kw.data <:+: (toLowerCase (title ++ " " ++ abstract)).data := by
  unfold matchesKeywords
  rw [List.any_eq_true]
  constructor
  · rintro ⟨kw, hkw, hinc⟩
    exact ⟨kw, hkw, (includes_iff _ kw).mp hinc⟩
  · rintro ⟨kw, hkw, hin⟩
    exact ⟨kw, hkw, (includes_iff _ kw).mpr hin⟩

/-- C9, at a failing input.  On 31 August 2024 (noon UTC) the month six months
back is February, yet `sixMonthsAgo` returns the second of March. -/
theorem sixMonthsAgo_end_of_august :
    isoDate endOfAugust = "2024-08-31" ∧ getMonth endOfAugust - 6 = 1 ∧
      sixMonthsAgo endOfAugust = "2024-03-02" := by
  decide

end FetchPublications
